import Mathlib

set_option maxRecDepth 8000

/-!
Shallow embedding of the jlek lexer generator (regex-to-DFA compiler plus
backtracking runtime scanner).

The embedding follows the Rust sources:
  * `src/regex_parser/lexer.rs` — pattern tokenizer (`tokenize` below).
    The Rust lexer produces tokens on demand with one token of lookahead;
    since producing a token never depends on parser state, pre-tokenizing
    the whole pattern is observationally identical on every accepted
    pattern (an accepted pattern forces the Rust lexer to consume the
    entire input, since the parser requires a final `End` token).
  * `src/regex_parser.rs` — recursive-descent pattern parser (`p1` … `p5`).
    Recursion is made total with an explicit fuel argument; every claim
    about accepted patterns quantifies over the fuel.
  * `src/lexer_spec.rs` — position tables (`nullable`, `firstpos`,
    `lastpos`, `followPos`) and the DFA builder (`createDfa`,
    `fillStates`).  The Rust `Cache` keys its memo tables by structural
    equality of nodes; since every leaf carries a globally unique
    position, structurally equal subtrees are identical, so the tables
    coincide with the pure recursive functions used here.  `followPos`
    reproduces the source traversal exactly, including the fact that the
    `Or` arm of `calculate_follow_pos` recurses only into its left child
    (the right child only gets `calculate_nullable`).
    The Rust builder iterates `for ch in &alphabet` over a `HashSet`;
    that iteration order is demonstrably significant, so it is an
    explicit `order : List Char` parameter here.
  * `src/lexer.rs` — the runtime scanner (`skipWsGo`, `lexGetGo`,
    `evalStack`, `peekToken`, `nextToken`, `showSpan`, `reportError`).
  * `symbol.rs` and `code_gen.rs` are not part of the sources; the data
    types and the serialization step are modelled from the specification
    (see `Span`, `TClass`, `Terminal`, `toLexTables`).
-/

deriving instance DecidableEq for Except

/-- `RegexTerminal` from `src/regex_parser.rs`: a leaf character tagged with
its globally unique position. -/
structure RegexTerminal where
  pos : Nat
  ch : Char
deriving DecidableEq

instance : Inhabited RegexTerminal := ⟨⟨0, 'x'⟩⟩

/-- `RegexNode` from `src/regex_parser.rs`. -/
inductive RegexNode where
  | Cat : RegexNode → RegexNode → RegexNode
  | Or : RegexNode → RegexNode → RegexNode
  | Parenthesized : RegexNode → RegexNode
  | Kleene : RegexNode → RegexNode
  | Terminal : RegexTerminal → RegexNode
deriving DecidableEq

/-- `SpecialToken` from `src/regex_parser/lexer.rs`. -/
inductive SpecialToken where
  | Lowercase
  | Number
deriving DecidableEq

/-- `Token` from `src/regex_parser/lexer.rs`. -/
inductive Token where
  | Star
  | Or
  | LeftParen
  | RightParen
  | Char : Char → Token
  | Special : SpecialToken → Token
  | End
deriving DecidableEq

/-- The pattern tokenizer, `Lexer::get`/`Lexer::special_character` from
`src/regex_parser/lexer.rs`, applied to the whole pattern.  `Token.End` is
not stored in the list: peeking an empty list yields `End` (the Rust lexer
keeps yielding `End` at end of input). -/
def tokenize : List Char → Except String (List Token)
  | [] => .ok []
  | '*' :: rest => (tokenize rest).map (Token.Star :: ·)
  | '|' :: rest => (tokenize rest).map (Token.Or :: ·)
  | '(' :: rest => (tokenize rest).map (Token.LeftParen :: ·)
  | ')' :: rest => (tokenize rest).map (Token.RightParen :: ·)
  | '\\' :: rest =>
    match rest with
    | c :: rest2 =>
      if c = '*' || c = '|' || c = '(' || c = ')' || c = '\\' then
        (tokenize rest2).map (Token.Char c :: ·)
      else if c = 'd' then (tokenize rest2).map (Token.Special .Number :: ·)
      else if c = 'w' then (tokenize rest2).map (Token.Special .Lowercase :: ·)
      else .error "Error while parsing special character"
    | [] => .error "Error while parsing special character"
  | c :: rest => (tokenize rest).map (Token.Char c :: ·)

/-- `Lexer::peek` on the residual token list: an exhausted pattern yields
`End`. -/
def peekTok : List Token → Token
  | [] => .End
  | t :: _ => t

/-- Result of one parsing function: the node built, the residual tokens,
the next unused position counter and the alphabet accumulated so far
(`RegexParser { lexer, current_pos, alphabet }`). -/
structure POut where
  node : RegexNode
  toks : List Token
  pos : Nat
  alpha : Finset Char
deriving DecidableEq

/-- The left-nested disjunction built by `RegexParser::number` /
`RegexParser::lowercase`: starting from an accumulator node, each further
character becomes `Or(acc, Terminal(ch, pos))` with the position counter
advancing and the character registered in the alphabet. -/
def mkAlt : List Char → RegexNode → Nat → Finset Char → RegexNode × Nat × Finset Char
  | [], n, pos, al => (n, pos, al)
  | c :: cs, n, pos, al => mkAlt cs (.Or n (.Terminal ⟨pos, c⟩)) (pos + 1) (insert c al)

/-- `RegexParser::is_in_follow_p2`. -/
def isFollowP2 (t : Token) : Bool :=
  t = Token.Or || t = Token.End || t = Token.RightParen

mutual

/-- `RegexParser::p1`: a `P2`, then a left-associated chain of `'|' P2`. -/
def p1 : Nat → List Token → Nat → Finset Char → Except String POut
  | 0, _, _, _ => .error "fuel"
  | fuel + 1, toks, pos, al =>
    match p2 fuel toks pos al with
    | .ok o => p1loop fuel o.node o.toks o.pos o.alpha
    | .error e => .error e
termination_by structural fuel _ _ _ => fuel

/-- The `while peek == Or` loop inside `RegexParser::p1`. -/
def p1loop : Nat → RegexNode → List Token → Nat → Finset Char → Except String POut
  | 0, _, _, _, _ => .error "fuel"
  | fuel + 1, acc, toks, pos, al =>
    if peekTok toks = Token.Or then
      match p2 fuel toks.tail pos al with
      | .ok o => p1loop fuel (.Or acc o.node) o.toks o.pos o.alpha
      | .error e => .error e
    else .ok ⟨acc, toks, pos, al⟩
termination_by structural fuel _ _ _ _ => fuel

/-- `RegexParser::p2`: one or more `P3`, concatenated left-associatively
until the lookahead is in the follow set of `P2`. -/
def p2 : Nat → List Token → Nat → Finset Char → Except String POut
  | 0, _, _, _ => .error "fuel"
  | fuel + 1, toks, pos, al =>
    match p3 fuel toks pos al with
    | .ok o => p2loop fuel o.node o.toks o.pos o.alpha
    | .error e => .error e
termination_by structural fuel _ _ _ => fuel

/-- The `while !is_in_follow_p2(peek)` loop inside `RegexParser::p2`. -/
def p2loop : Nat → RegexNode → List Token → Nat → Finset Char → Except String POut
  | 0, _, _, _, _ => .error "fuel"
  | fuel + 1, acc, toks, pos, al =>
    if isFollowP2 (peekTok toks) then .ok ⟨acc, toks, pos, al⟩
    else
      match p3 fuel toks pos al with
      | .ok o => p2loop fuel (.Cat acc o.node) o.toks o.pos o.alpha
      | .error e => .error e
termination_by structural fuel _ _ _ _ => fuel

/-- `RegexParser::p3`: a `P4` with an optional trailing `*`. -/
def p3 : Nat → List Token → Nat → Finset Char → Except String POut
  | 0, _, _, _ => .error "fuel"
  | fuel + 1, toks, pos, al =>
    match p4 fuel toks pos al with
    | .ok o =>
      if peekTok o.toks = Token.Star then .ok ⟨.Kleene o.node, o.toks.tail, o.pos, o.alpha⟩
      else .ok o
    | .error e => .error e
termination_by structural fuel _ _ _ => fuel

/-- `RegexParser::p4`: a parenthesized `P1` or a `P5`. -/
def p4 : Nat → List Token → Nat → Finset Char → Except String POut
  | 0, _, _, _ => .error "fuel"
  | fuel + 1, toks, pos, al =>
    if peekTok toks = Token.LeftParen then
      match p1 fuel toks.tail pos al with
      | .ok o =>
        if peekTok o.toks = Token.RightParen then
          .ok ⟨.Parenthesized o.node, o.toks.tail, o.pos, o.alpha⟩
        else .error "Expected closing right parenthesis"
      | .error e => .error e
    else p5 fuel toks pos al
termination_by structural fuel _ _ _ => fuel

/-- `RegexParser::p5`: a single character, or a parse-time expansion of
`\d` / `\w` into a balanced (left-nested) disjunction of literals.
`single_char` registers the character in the alphabet and bumps the
position counter. -/
def p5 : Nat → List Token → Nat → Finset Char → Except String POut
  | 0, _, _, _ => .error "fuel"
  | _ + 1, toks, pos, al =>
    match toks with
    | Token.Char c :: rest => .ok ⟨.Terminal ⟨pos, c⟩, rest, pos + 1, insert c al⟩
    | Token.Special .Number :: rest =>
      match mkAlt "123456789".toList (.Terminal ⟨pos, '0'⟩) (pos + 1) (insert '0' al) with
      | (n, pos2, al2) => .ok ⟨n, rest, pos2, al2⟩
    | Token.Special .Lowercase :: rest =>
      match mkAlt "bcdefghijklmnopqrstuvwxyz".toList (.Terminal ⟨pos, 'a'⟩) (pos + 1)
          (insert 'a' al) with
      | (n, pos2, al2) => .ok ⟨n, rest, pos2, al2⟩
    | _ => .error "Expected (special) character"

end

/-- `RegexParser::parse` over a pre-tokenized pattern: run `p1`, require the
lookahead to be `End`, then augment the tree with the sentinel terminal
`('\0', next position)` (`RegexParser::augment`). -/
def parseTokens (fuel : Nat) (toks : List Token) : Except String (RegexNode × Finset Char) :=
  match p1 fuel toks 0 ∅ with
  | .ok o =>
    if peekTok o.toks = Token.End then
      .ok (.Cat o.node (.Terminal ⟨o.pos, '\x00'⟩), o.alpha)
    else .error "Expected EOF"
  | .error e => .error e

/-- `regex_parser::parse_regex`: tokenize, then parse, with explicit fuel. -/
def parseRegexF (fuel : Nat) (pattern : String) : Except String (RegexNode × Finset Char) :=
  match tokenize pattern.toList with
  | .ok toks => parseTokens fuel toks
  | .error e => .error e

/-- `Cache::calculate_nullable` from `src/lexer_spec.rs`, as a pure
recursive function (see the module comment for why the memo table and the
recursion coincide).  Note `nullable (Kleene _) = true`. -/
def nullable : RegexNode → Bool
  | .Cat l r => nullable l && nullable r
  | .Or l r => nullable l || nullable r
  | .Parenthesized c => nullable c
  | .Kleene _ => true
  | .Terminal _ => false

/-- `Cache::calculate_first_pos`. -/
def firstpos : RegexNode → Finset RegexTerminal
  | .Cat l r => if nullable l then firstpos l ∪ firstpos r else firstpos l
  | .Or l r => firstpos l ∪ firstpos r
  | .Parenthesized c => firstpos c
  | .Kleene c => firstpos c
  | .Terminal t => {t}

/-- `Cache::calculate_last_pos`. -/
def lastpos : RegexNode → Finset RegexTerminal
  | .Cat l r => if nullable r then lastpos r ∪ lastpos l else lastpos r
  | .Or l r => lastpos l ∪ lastpos r
  | .Parenthesized c => lastpos c
  | .Kleene c => lastpos c
  | .Terminal t => {t}

/-- The follow-position set accumulated by `Cache::calculate_follow_pos`
for a given terminal, rendered as the union of the contributions of every
node the traversal actually visits.  The `Or` arm mirrors the source
exactly: it recurses into the left child only (the source calls
`calculate_nullable`, not `calculate_follow_pos`, on the right child), so
contributions from `Cat`/`Kleene` nodes inside the right operand of an
`Or` are dropped.  An absent entry in the Rust table is the empty set
(`Cache::follow_pos` returns `None` and the caller skips the union). -/
def followPos : RegexNode → RegexTerminal → Finset RegexTerminal
  | .Cat l r, t => (if t ∈ lastpos l then firstpos r else ∅) ∪ followPos l t ∪ followPos r t
  | .Or l _, t => followPos l t
  | .Parenthesized c, t => followPos c t
  | .Kleene c, t => (if t ∈ lastpos c then firstpos c else ∅) ∪ followPos c t
  | .Terminal _, _ => ∅

/-- All leaves of a syntax tree. -/
def treeTerminals : RegexNode → Finset RegexTerminal
  | .Cat l r => treeTerminals l ∪ treeTerminals r
  | .Or l r => treeTerminals l ∪ treeTerminals r
  | .Parenthesized c => treeTerminals c
  | .Kleene c => treeTerminals c
  | .Terminal t => {t}

/-- The characters of the leaves of a syntax tree. -/
def treeChars (n : RegexNode) : Finset Char :=
  (treeTerminals n).image RegexTerminal.ch

/-- The sentinel terminal of an augmented tree (the right child appended by
`RegexParser::augment`). -/
def sentinel : RegexNode → RegexTerminal
  | .Cat _ (.Terminal t) => t
  | _ => ⟨0, '\x00'⟩

/-- Kernel-friendly boolean membership in a finset, via multiset count
(mirrors `HashSet::contains`). -/
def fmem (t : RegexTerminal) (s : Finset RegexTerminal) : Bool :=
  decide (0 < s.val.count t)

/-- Kernel-friendly boolean inclusion of finsets. -/
def fsub (a b : Finset RegexTerminal) : Bool :=
  decide ((a.val.filter (fun t => fmem t b = true)).card = a.val.card)

/-- Kernel-friendly boolean equality of finsets: mutual inclusion.  This is
exactly the semantics of `HashSet` equality (`follow_pos_union ==
s.terminals` in `LexerSpec::create_dfa` compares set contents). -/
def fsetEq (a b : Finset RegexTerminal) : Bool :=
  fsub a b && fsub b a

theorem fmem_iff (t : RegexTerminal) (s : Finset RegexTerminal) :
    fmem t s = true ↔ t ∈ s := by
  simp only [fmem, decide_eq_true_eq, Multiset.count_pos]
  exact Iff.rfl

theorem fsub_iff (a b : Finset RegexTerminal) : fsub a b = true ↔ a ⊆ b := by
  simp only [fsub, decide_eq_true_eq]
  constructor
  · intro h t ht
    have hf : Multiset.filter (fun t => fmem t b = true) a.val = a.val :=
      Multiset.eq_of_le_of_card_le (Multiset.filter_le _ _) (le_of_eq h.symm)
    exact (fmem_iff t b).mp (Multiset.filter_eq_self.mp hf t (Finset.mem_def.mp ht))
  · intro h
    rw [Multiset.filter_eq_self.mpr]
    intro t ht
    exact (fmem_iff t b).mpr (h (Finset.mem_def.mpr ht))

theorem fsetEq_iff (a b : Finset RegexTerminal) : fsetEq a b = true ↔ a = b := by
  simp only [fsetEq, Bool.and_eq_true, fsub_iff]
  constructor
  · rintro ⟨h1, h2⟩
    exact Finset.Subset.antisymm h1 h2
  · rintro rfl
    exact ⟨Finset.Subset.refl a, Finset.Subset.refl a⟩

/-- `DfaState` from `src/lexer_spec.rs`. -/
structure DfaState where
  terminals : Finset RegexTerminal
  next : List (Char × Nat)
deriving DecidableEq

instance : Inhabited DfaState := ⟨⟨∅, []⟩⟩

/-- `DfaState::is_accepting`: some terminal of the state carries the
sentinel character `'\0'`. -/
def DfaState.accepting (d : DfaState) : Bool :=
  decide (0 < (d.terminals.filter (fun t => t.ch = '\x00')).card)

theorem accepting_iff (d : DfaState) :
    d.accepting = true ↔ ∃ t ∈ d.terminals, t.ch = '\x00' := by
  simp only [DfaState.accepting, decide_eq_true_eq, Finset.card_pos]
  rw [Finset.filter_nonempty_iff]

/-- The transition target set computed by the inner loop of
`LexerSpec::create_dfa`: the union of `followPos` over every terminal of
the state whose character is `c`. -/
def followUnion (root : RegexNode) (S : Finset RegexTerminal) (c : Char) :
    Finset RegexTerminal :=
  (S.filter (fun t => t.ch = c)).sup (followPos root)

/-- Record a transition `(c, idx)` on state `v` (`states[v].next.insert`). -/
def addNext (states : List DfaState) (v : Nat) (c : Char) (idx : Nat) : List DfaState :=
  match states[v]? with
  | some sv => states.set v ⟨sv.terminals, sv.next ++ [(c, idx)]⟩
  | none => states

/-- One alphabet character of the `for ch in &alphabet` loop of
`LexerSpec::create_dfa`: compute the follow-position union; if it equals an
existing state's set, link to it; otherwise, if non-empty, append a fresh
state and link to it. -/
def processChar (root : RegexNode) (states : List DfaState) (v : Nat) (c : Char) :
    List DfaState :=
  let u := followUnion root (states.getD v default).terminals c
  match states.findIdx? (fun st => fsetEq u st.terminals) with
  | some idx => addNext states v c idx
  | none =>
    if u.card = 0 then states
    else addNext (states ++ [⟨u, []⟩]) v c states.length

/-- The `while visited_states < states.len()` work-list loop of
`LexerSpec::create_dfa`, with explicit fuel (the Rust loop terminates
because states are distinct subsets of a finite terminal set).  `order` is
the iteration order of the alphabet `HashSet`. -/
def dfaLoop (root : RegexNode) (order : List Char) : Nat → List DfaState → Nat → List DfaState
  | 0, states, _ => states
  | fuel + 1, states, visited =>
    if visited < states.length then
      dfaLoop root order fuel
        (order.foldl (fun sts c => processChar root sts visited c) states) (visited + 1)
    else states

/-- `LexerSpec::create_dfa` on an already parsed tree: start from
`firstpos(root)` and explore. -/
def createDfa (fuel : Nat) (root : RegexNode) (order : List Char) : List DfaState :=
  dfaLoop root order fuel [⟨firstpos root, []⟩] 0

/-- `State` from `src/lexer_spec.rs` (one entry of the flat array). -/
structure FlatState where
  accepts : Option String
  next : List (Char × Nat)
deriving DecidableEq

/-- Append a character to an accumulator unless already present: the chars
of a token list in first-insertion order.  This enumerates exactly the
parser's alphabet set (each literal or expanded character is inserted when
first consumed); it serves as one concrete iteration order of the
alphabet `HashSet`, whose actual order Rust leaves unspecified (see the c6
theorems). -/
def addChar (acc : List Char) (c : Char) : List Char :=
  if acc.contains c then acc else acc ++ [c]

/-- The character set a single regex token denotes, as a list. -/
def tokenCharsList : Token → List Char
  | .Char c => [c]
  | .Special .Number => "0123456789".toList
  | .Special .Lowercase => "abcdefghijklmnopqrstuvwxyz".toList
  | _ => []

/-- The pattern's alphabet in first-insertion order. -/
def tokensOrder (ts : List Token) : List Char :=
  ts.foldl (fun acc t => (tokenCharsList t).foldl addChar acc) []

/-- `LexerSpec::fill_states`: for each token specification in declaration
order, build its DFA, append the states with transition targets shifted by
the current array length, and record that offset as the specification's
initial state.  The alphabet is iterated in first-insertion order (see
`tokensOrder`).  `none` models the `unwrap` panic on an invalid pattern. -/
def fillStates (fuel : Nat) (specs : List (String × String)) :
    Option (List FlatState × List Nat) :=
  specs.foldl (fun acc sp =>
    match acc with
    | none => none
    | some (states, inits) =>
      match tokenize sp.2.toList with
      | .error _ => none
      | .ok toks =>
        match parseTokens fuel toks with
        | .error _ => none
        | .ok (tree, _alpha) =>
          let dfa := createDfa fuel tree (tokensOrder toks)
          let off := states.length
          some (states ++ dfa.map (fun d =>
              ⟨if d.accepting then some sp.1 else none,
               d.next.map (fun p => (p.1, p.2 + off))⟩),
            inits ++ [off])) (some ([], []))

/-- Modelled from the spec: `Span` from the host module `symbol.rs`, which
is not among the sources — half-open byte offsets (spec section 6). -/
structure Span where
  startPos : Nat
  endPos : Nat
deriving DecidableEq

/-- Modelled from the spec: `TerminalClass` from `symbol.rs` (not among the
sources) — an ordered enumeration matching token-specification declaration
order, plus the `End` class (spec section 6).  Token classes are the
declaration indices, compared numerically. -/
inductive TClass where
  | tok : Nat → TClass
  | tEnd
deriving DecidableEq

/-- Modelled from the spec: `Terminal` from `symbol.rs` (not among the
sources) — a token class together with a source span. -/
structure Terminal where
  cls : TClass
  span : Span
deriving DecidableEq

/-- The tables the generated `lexer.rs` module embeds: per-state accepting
class, per-state transition rows, and the initial states (one per token
specification, in declaration order). -/
structure LexTables where
  states : List (Option Nat)
  transitionTable : List (List (Char × Nat))
  initialStates : List Nat
deriving DecidableEq

/-- Modelled from the spec: `code_gen.rs` (not among the sources)
serializes `LexerSpec` into the generated module's tables — compare the
concrete generated instance in `Lexer::from_source_str` of `src/lexer.rs`.
A state whose `accepts` names the token `nm` gets the class index of the
first specification named `nm` (the `TerminalClass` enumeration follows
declaration order, spec section 6). -/
def toLexTables (fuel : Nat) (specs : List (String × String)) : Option LexTables :=
  match fillStates fuel specs with
  | none => none
  | some (flat, inits) =>
    some ⟨flat.map (fun st => st.accepts.bind (fun nm => specs.findIdx? (fun sp => sp.1 == nm))),
          flat.map (fun st => st.next), inits⟩

/-- `Lexer` from `src/lexer.rs` (the mutable scanning state; the immutable
tables are passed separately).  `statesStack` keeps the deepest frontier at
the head; the bottom of the Rust stack is the last element here. -/
structure Lexer where
  chars : List Char
  startPos : Nat
  currentPos : Nat
  currentToken : Option Terminal
  statesStack : List (List Nat)
deriving DecidableEq

/-- `char::is_whitespace` restricted to the code points a `u8`-cast
character can take (the input is cast through `u8` in
`Lexer::from_source_str`): the White_Space code points below U+0100. -/
def isWs (c : Char) : Bool :=
  c = ' ' || c = '\t' || c = '\n' || c = '\x0b' || c = '\x0c' || c = '\r' ||
    c = '\x85' || c = '\xa0'

/-- `Lexer::from_source_str`: each input char is cast to `u8` (truncating
to its low byte) and stored; the frontier stack starts as the single
frontier `initial_states`. -/
def fromSourceStr (tb : LexTables) (source : String) : Lexer :=
  { chars := source.toList.map (fun c => Char.ofNat (c.toNat % 256)),
    startPos := 0, currentPos := 0, currentToken := none,
    statesStack := [tb.initialStates] }

/-- The `line_start_indices` field computed in `Lexer::from_source_str`:
offset 0 plus the offset just past every newline. -/
def lineStartIndices (chars : List Char) : List Nat :=
  0 :: (List.range chars.length).filterMap
    (fun i => if chars.getD i ' ' = '\n' then some (i + 1) else none)

/-- Right-aligned width-3 rendering of a line number (`{line_number:3}`). -/
def padNum3 (n : Nat) : String :=
  String.mk (List.replicate (3 - (Nat.repr n).length) ' ') ++ Nat.repr n

/-- `Lexer::show_span`: locate the line containing the span start
(`partition_point` on the sorted line-start offsets = length of the prefix
of offsets that are `≤ start`), slice the line, and render the caret
marker. -/
def showSpan (chars : List Char) (sp : Span) : String :=
  let ls := lineStartIndices chars
  let lineNumber := (ls.takeWhile (fun i => decide (i ≤ sp.startPos))).length
  let lineStart := ls.getD (lineNumber - 1) 0
  let lineEnd :=
    match ls[lineNumber]? with
    | some idx => idx - 1
    | none => chars.length
  let line := String.mk ((chars.drop lineStart).take (lineEnd - lineStart))
  let spanMarker := String.mk (List.replicate (sp.startPos - lineStart) ' ') ++ "^" ++
    String.mk (List.replicate (sp.endPos - sp.startPos - 1) '-')
  "Line " ++ padNum3 lineNumber ++ "|" ++ line ++ "\n         " ++ spanMarker

/-- `Lexer::report_error`: the rendered span context plus the offending
character (or `EOF` at end of input). -/
def reportError (chars : List Char) (startPos pos : Nat) : String :=
  showSpan chars ⟨startPos, pos⟩ ++ "\nerror: unexpected character found: " ++
    (match chars[pos]? with
     | some c => String.mk [c]
     | none => "EOF")

/-- The new frontier computed by `Lexer::move_states_on_stack`: all targets
of transitions on `c` from states of the current deepest frontier (in
frontier order, duplicates kept). -/
def stepFrontier (tb : LexTables) (f : List Nat) (c : Char) : List Nat :=
  f.filterMap (fun st => (tb.transitionTable.getD st []).lookup c)

/-- The `accepting_classes` vector collected by `Lexer::evaluate_stack`
from one frontier: the class of every accepting state present, in frontier
order. -/
def accClasses (tb : LexTables) (f : List Nat) : List Nat :=
  f.filterMap (fun st => tb.states.getD st none)

/-- `Lexer::evaluate_stack`: starting from the deepest frontier, emit a
terminal of the smallest accepting class present, or pop the frontier and
move the cursor back one character; at depth 1 with no accepting state,
report a lexical error.  Returns the result plus the final cursor and
stack. -/
def evalStack (tb : LexTables) (chars : List Char) (startPos : Nat) :
    List (List Nat) → Nat → Except String Terminal × Nat × List (List Nat)
  | [], pos => (.error "empty states stack", pos, [])
  | f :: rest, pos =>
    match (accClasses tb f).min? with
    | some c => (.ok ⟨.tok c, ⟨startPos, pos⟩⟩, pos, f :: rest)
    | none =>
      match rest with
      | [] => (.error (reportError chars startPos pos), pos, [f])
      | g :: rest2 => evalStack tb chars startPos (g :: rest2) (pos - 1)

/-- The match loop of `Lexer::get`: while the next character yields a
non-empty frontier, push it and consume the character; then evaluate the
stack.  Fuel `chars.length + 1` (supplied by `lexGet`) always suffices
since the cursor advances at each step. -/
def lexGetGo (tb : LexTables) (chars : List Char) (startPos : Nat) :
    Nat → Nat → List (List Nat) → Except String Terminal × Nat × List (List Nat)
  | 0, pos, stack => (.error "fuel", pos, stack)
  | fuel + 1, pos, stack =>
    match chars[pos]? with
    | some c =>
      match stepFrontier tb (stack.headD []) c with
      | [] => evalStack tb chars startPos stack pos
      | g :: gs => lexGetGo tb chars startPos fuel (pos + 1) ((g :: gs) :: stack)
    | none => evalStack tb chars startPos stack pos

/-- `Lexer::get`. -/
def lexGet (tb : LexTables) (s : Lexer) : Except String Terminal × Lexer :=
  match lexGetGo tb s.chars s.startPos (s.chars.length + 1) s.currentPos s.statesStack with
  | (r, pos, stack) => (r, { s with currentPos := pos, statesStack := stack })

/-- The whitespace-skipping loop of `Lexer::skip_whitespaces`, returning
the final cursor position.  Fuel `chars.length + 1` always suffices. -/
def skipWsGo (chars : List Char) : Nat → Nat → Nat
  | 0, pos => pos
  | fuel + 1, pos =>
    match chars[pos]? with
    | some c => if isWs c then skipWsGo chars fuel (pos + 1) else pos
    | none => pos

/-- `Lexer::skip_whitespaces`: advance past whitespace, then
`move_start_pos`. -/
def skipWs (s : Lexer) : Lexer :=
  let p := skipWsGo s.chars (s.chars.length + 1) s.currentPos
  { s with currentPos := p, startPos := p }

/-- `Lexer::peek_token`: if no token is cached, skip whitespace; at end of
input cache an `End` terminal with the zero-length span at the cursor;
otherwise run `get` and, on success, collapse the frontier stack back to
its bottom entry (`split_off(1)`).  On a lexical error the `?` operator
skips both the caching and the collapse. -/
def peekToken (tb : LexTables) (s : Lexer) : Except String Terminal × Lexer :=
  match s.currentToken with
  | some t => (.ok t, s)
  | none =>
    let s1 := skipWs s
    match s1.chars[s1.currentPos]? with
    | none =>
      let t : Terminal := ⟨.tEnd, ⟨s1.startPos, s1.currentPos⟩⟩
      (.ok t, { s1 with currentToken := some t })
    | some _ =>
      match lexGet tb s1 with
      | (.ok t, s2) =>
        (.ok t, { s2 with
                  currentToken := some t
                  statesStack := [s2.statesStack.getLastD []] })
      | (.error e, s2) => (.error e, s2)

/-- `Lexer::next_token`: peek, then advance the token-boundary marker to
the cursor and clear the cache. -/
def nextToken (tb : LexTables) (s : Lexer) : Except String Terminal × Lexer :=
  match peekToken tb s with
  | (.ok t, s1) => (.ok t, { s1 with startPos := s1.currentPos, currentToken := none })
  | (.error e, s1) => (.error e, s1)

/-- Claim C1 (code bug): on the pattern `a|bc`, for the `Cat` node nested
inside the right operand of the `Or`, the position of `b` lies in the
lastpos of that `Cat`'s left child and the position of `c` is its right
child's firstpos — yet the follow-position table computed by
`calculate_follow_pos` holds no entry at all for `b`'s position (the `Or`
arm of the traversal never recurses into its right operand), so
`firstpos(r) ⊆ followpos(p)` fails there; consequently the generated lexer
for the specification `X = a|bc` rejects the input `bc` outright. -/
theorem c1_followpos_dropped_in_or_right :
    parseRegexF 100 "a|bc" =
      .ok (.Cat (.Or (.Terminal ⟨0, 'a'⟩) (.Cat (.Terminal ⟨1, 'b'⟩) (.Terminal ⟨2, 'c'⟩)))
        (.Terminal ⟨3, '\x00'⟩), {'c', 'b', 'a'}) ∧
    (⟨1, 'b'⟩ : RegexTerminal) ∈ lastpos (.Terminal ⟨1, 'b'⟩ : RegexNode) ∧
    (⟨2, 'c'⟩ : RegexTerminal) ∈ firstpos (.Terminal ⟨2, 'c'⟩ : RegexNode) ∧
    followPos (.Cat (.Or (.Terminal ⟨0, 'a'⟩) (.Cat (.Terminal ⟨1, 'b'⟩) (.Terminal ⟨2, 'c'⟩)))
      (.Terminal ⟨3, '\x00'⟩)) ⟨1, 'b'⟩ = ∅ ∧
    (toLexTables 100 [("X", "a|bc")]).map (fun tb =>
      (nextToken tb (fromSourceStr tb "bc")).1.toOption.isSome) = some false := by
  refine ⟨by rfl, by decide, by decide, by decide, by rfl⟩

/-- Claim C2 (code bug): `calculate_nullable` marks every `Kleene` node
nullable, so for the pattern `a*` the firstpos of the augmented root
contains the sentinel position and the initial DFA state is accepting —
the built DFA accepts the empty string, although the crate documentation
specifies `x*` as matching one or more occurrences. -/
theorem c2_kleene_initial_state_accepts_empty :
    parseRegexF 100 "a*" =
      .ok (.Cat (.Kleene (.Terminal ⟨0, 'a'⟩)) (.Terminal ⟨1, '\x00'⟩), {'a'}) ∧
    nullable (.Kleene (.Terminal ⟨0, 'a'⟩)) = true ∧
    (⟨1, '\x00'⟩ : RegexTerminal) ∈
      firstpos (.Cat (.Kleene (.Terminal ⟨0, 'a'⟩)) (.Terminal ⟨1, '\x00'⟩)) ∧
    ((createDfa 100 (.Cat (.Kleene (.Terminal ⟨0, 'a'⟩)) (.Terminal ⟨1, '\x00'⟩))
      ['a']).getD 0 default).accepting = true := by
  refine ⟨by rfl, by rfl, by decide, by rfl⟩

/-- Claim C3: with the token specifications `Ident = \w\w*` and
`Keyword = if` in that order, scanning the input `iffy` emits a single
`Ident` terminal (class index 0) spanning all four characters, followed by
the `End` terminal — maximal munch overrides the shorter keyword match. -/
theorem c3_longest_match_iffy :
    (toLexTables 1000 [("Ident", "\\w\\w*"), ("Keyword", "if")]).map (fun tb =>
      ((nextToken tb (fromSourceStr tb "iffy")).1,
       (nextToken tb (nextToken tb (fromSourceStr tb "iffy")).2).1)) =
    some (.ok ⟨.tok 0, ⟨0, 4⟩⟩, .ok ⟨.tEnd, ⟨4, 4⟩⟩) := by rfl

/-- Claim C4: with the token specifications `A = a` and `B = a` in that
order, scanning the input `a` emits a terminal of class index 0 (`A`): at
the accepting frontier the smallest declaration index wins the tie. -/
theorem c4_tie_break_earliest_declaration :
    (toLexTables 1000 [("A", "a"), ("B", "a")]).map (fun tb =>
      (nextToken tb (fromSourceStr tb "a")).1) =
    some (.ok ⟨.tok 0, ⟨0, 1⟩⟩) := by rfl

/-- Claim C5, counterexample: for the accepted pattern consisting of the
single literal NUL character, the initial DFA state `{(0, '\0')}` is
accepting (its terminal carries the sentinel character) although the
sentinel position `(1, '\0')` is not a member of its position set — the
accepting flag tests the sentinel character, not the sentinel position. -/
theorem c5_nul_accepting_without_sentinel :
    parseRegexF 100 "\x00" =
      .ok (.Cat (.Terminal ⟨0, '\x00'⟩) (.Terminal ⟨1, '\x00'⟩), {'\x00'}) ∧
    sentinel (.Cat (.Terminal ⟨0, '\x00'⟩) (.Terminal ⟨1, '\x00'⟩)) = ⟨1, '\x00'⟩ ∧
    ((createDfa 100 (.Cat (.Terminal ⟨0, '\x00'⟩) (.Terminal ⟨1, '\x00'⟩))
      ['\x00']).getD 0 default).accepting = true ∧
    (⟨1, '\x00'⟩ : RegexTerminal) ∉
      ((createDfa 100 (.Cat (.Terminal ⟨0, '\x00'⟩) (.Terminal ⟨1, '\x00'⟩))
        ['\x00']).getD 0 default).terminals := by
  refine ⟨by rfl, by rfl, by rfl, by decide⟩

/-- Claim C6, counterexample: the builder's output depends on the
iteration order of the alphabet set.  For the pattern `a*b*c`, iterating
the alphabet `{a,b,c}` as `[a,b,c]` versus `[c,b,a]` (both enumerate the
same set) yields flat state arrays that differ at index 1: non-accepting
in the first, accepting in the second.  The Rust `HashSet` iteration order
is unspecified and varies between instances, so re-running the builder
need not reproduce the same array. -/
theorem c6_order_dependent_state_array :
    parseRegexF 100 "a*b*c" =
      .ok (.Cat (.Cat (.Cat (.Kleene (.Terminal ⟨0, 'a'⟩)) (.Kleene (.Terminal ⟨1, 'b'⟩)))
        (.Terminal ⟨2, 'c'⟩)) (.Terminal ⟨3, '\x00'⟩), {'c', 'b', 'a'}) ∧
    (['a', 'b', 'c'] : List Char).toFinset = (['c', 'b', 'a'] : List Char).toFinset ∧
    ((createDfa 100 (.Cat (.Cat (.Cat (.Kleene (.Terminal ⟨0, 'a'⟩))
      (.Kleene (.Terminal ⟨1, 'b'⟩))) (.Terminal ⟨2, 'c'⟩)) (.Terminal ⟨3, '\x00'⟩))
      ['a', 'b', 'c']).getD 1 default).accepting = false ∧
    ((createDfa 100 (.Cat (.Cat (.Cat (.Kleene (.Terminal ⟨0, 'a'⟩))
      (.Kleene (.Terminal ⟨1, 'b'⟩))) (.Terminal ⟨2, 'c'⟩)) (.Terminal ⟨3, '\x00'⟩))
      ['c', 'b', 'a']).getD 1 default).accepting = true ∧
    createDfa 100 (.Cat (.Cat (.Cat (.Kleene (.Terminal ⟨0, 'a'⟩))
      (.Kleene (.Terminal ⟨1, 'b'⟩))) (.Terminal ⟨2, 'c'⟩)) (.Terminal ⟨3, '\x00'⟩))
      ['a', 'b', 'c'] ≠
    createDfa 100 (.Cat (.Cat (.Cat (.Kleene (.Terminal ⟨0, 'a'⟩))
      (.Kleene (.Terminal ⟨1, 'b'⟩))) (.Terminal ⟨2, 'c'⟩)) (.Terminal ⟨3, '\x00'⟩))
      ['c', 'b', 'a'] := by
  refine ⟨by rfl, by decide, by rfl, by rfl, ?_⟩
  intro h
  have h1 : ((createDfa 100 (.Cat (.Cat (.Cat (.Kleene (.Terminal ⟨0, 'a'⟩))
      (.Kleene (.Terminal ⟨1, 'b'⟩))) (.Terminal ⟨2, 'c'⟩)) (.Terminal ⟨3, '\x00'⟩))
      ['a', 'b', 'c']).getD 1 default).accepting = false := by rfl
  rw [h] at h1
  have h2 : ((createDfa 100 (.Cat (.Cat (.Cat (.Kleene (.Terminal ⟨0, 'a'⟩))
      (.Kleene (.Terminal ⟨1, 'b'⟩))) (.Terminal ⟨2, 'c'⟩)) (.Terminal ⟨3, '\x00'⟩))
      ['c', 'b', 'a']).getD 1 default).accepting = true := by rfl
  rw [h2] at h1
  exact Bool.noConfusion h1

/-- Claim C7, counterexample: the parser accepts the pattern consisting of
a single literal NUL character, and the returned alphabet `{'\0'}` does
contain the sentinel character. -/
theorem c7_nul_literal_in_alphabet :
    parseRegexF 100 "\x00" =
      .ok (.Cat (.Terminal ⟨0, '\x00'⟩) (.Terminal ⟨1, '\x00'⟩), {'\x00'}) ∧
    '\x00' ∈ ({'\x00'} : Finset Char) := by
  refine ⟨by rfl, by decide⟩

/-- The successive non-empty frontiers pushed by the match loop of
`Lexer::get`, starting from frontier `f`, over a given input suffix: the
loop stops at the first character whose step yields an empty frontier. -/
def chainF (tb : LexTables) (f : List Nat) : List Char → List (List Nat)
  | [] => []
  | c :: cs =>
    match stepFrontier tb f c with
    | [] => []
    | g :: gs => (g :: gs) :: chainF tb (g :: gs) cs

theorem get?_drop_cons {l : List Char} {n : Nat} {a : Char} (h : l[n]? = some a) :
    l.drop n = a :: l.drop (n + 1) := by
  induction l generalizing n with
  | nil => simp at h
  | cons x xs ih =>
    cases n with
    | zero =>
      simp only [List.getElem?_cons_zero, Option.some.injEq] at h
      simp [h]
    | succ m =>
      simp only [List.getElem?_cons_succ] at h
      simpa using ih h

theorem get?_lt_length {l : List Char} {n : Nat} {a : Char} (h : l[n]? = some a) :
    n < l.length := by
  by_contra hc
  rw [List.getElem?_eq_none (by omega)] at h
  exact Option.noConfusion h

theorem skipWsGo_succ_none {chars : List Char} {pos : Nat} (fuel : Nat)
    (hg : chars[pos]? = none) : skipWsGo chars (fuel + 1) pos = pos := by
  simp [skipWsGo, hg]

theorem skipWsGo_succ_some {chars : List Char} {pos : Nat} {c : Char} (fuel : Nat)
    (hg : chars[pos]? = some c) :
    skipWsGo chars (fuel + 1) pos =
      if isWs c then skipWsGo chars fuel (pos + 1) else pos := by
  simp [skipWsGo, hg]

theorem skipWsGo_all (chars : List Char) (fuel pos : Nat) (hle : pos ≤ chars.length)
    (hfuel : chars.length - pos < fuel) (hws : ∀ c ∈ chars.drop pos, isWs c = true) :
    skipWsGo chars fuel pos = chars.length := by
  induction fuel generalizing pos with
  | zero => omega
  | succ fuel ih =>
    cases hg : chars[pos]? with
    | none =>
      have hlen := List.getElem?_eq_none_iff.mp hg
      rw [skipWsGo_succ_none fuel hg]
      omega
    | some c =>
      have hmem : c ∈ chars.drop pos := by
        rw [get?_drop_cons hg]
        exact List.mem_cons_self _ _
      have hlt := get?_lt_length hg
      rw [skipWsGo_succ_some fuel hg, hws c hmem]
      simp only [if_true]
      apply ih (pos + 1) (by omega) (by omega)
      intro x hx
      apply hws
      rw [get?_drop_cons hg]
      exact List.mem_cons_of_mem _ hx

theorem skipWsGo_stop (chars : List Char) (fuel pos : Nat) (hfuel : chars.length - pos < fuel) :
    ∀ c, chars[skipWsGo chars fuel pos]? = some c → isWs c = false := by
  induction fuel generalizing pos with
  | zero => omega
  | succ fuel ih =>
    cases hg : chars[pos]? with
    | none =>
      rw [skipWsGo_succ_none fuel hg]
      intro c hc
      rw [hg] at hc
      exact Option.noConfusion hc
    | some c0 =>
      have hlt := get?_lt_length hg
      rw [skipWsGo_succ_some fuel hg]
      cases hw : isWs c0 with
      | true =>
        simp only [if_true]
        exact ih (pos + 1) (by omega)
      | false =>
        simp only [Bool.false_eq_true, if_false]
        intro c hc
        rw [hg] at hc
        cases hc
        exact hw

/-- Claim C9: whenever the scan cursor is at end of input after whitespace
skipping (everything from the cursor on is whitespace), `peek_token`
caches and returns an `End` terminal whose span is zero-length at the
final offset, `next_token` returns it and leaves the cursor at the final
offset, and calling `next_token` again on the resulting state returns the
very same `End` terminal without changing the state at all. -/
theorem c9_end_token_at_eof (tb : LexTables) (s : Lexer)
    (hnone : s.currentToken = none)
    (hle : s.currentPos ≤ s.chars.length)
    (hws : ∀ c ∈ s.chars.drop s.currentPos, isWs c = true) :
    peekToken tb s =
      (.ok ⟨.tEnd, ⟨s.chars.length, s.chars.length⟩⟩,
       { s with
         currentPos := s.chars.length
         startPos := s.chars.length
         currentToken := some ⟨.tEnd, ⟨s.chars.length, s.chars.length⟩⟩ }) ∧
    nextToken tb s =
      (.ok ⟨.tEnd, ⟨s.chars.length, s.chars.length⟩⟩,
       { s with
         currentPos := s.chars.length
         startPos := s.chars.length
         currentToken := none }) ∧
    nextToken tb { s with
         currentPos := s.chars.length
         startPos := s.chars.length
         currentToken := none } =
      (.ok ⟨.tEnd, ⟨s.chars.length, s.chars.length⟩⟩,
       { s with
         currentPos := s.chars.length
         startPos := s.chars.length
         currentToken := none }) := by
  have hskip : skipWs s = { s with currentPos := s.chars.length, startPos := s.chars.length } := by
    unfold skipWs
    rw [skipWsGo_all s.chars _ _ hle (by omega) hws]
  have hget : s.chars[s.chars.length]? = none := List.getElem?_eq_none (le_refl _)
  have hpeek : peekToken tb s =
      (.ok ⟨.tEnd, ⟨s.chars.length, s.chars.length⟩⟩,
       { s with
         currentPos := s.chars.length
         startPos := s.chars.length
         currentToken := some ⟨.tEnd, ⟨s.chars.length, s.chars.length⟩⟩ }) := by
    unfold peekToken
    rw [hnone, hskip]
    simp only [hget]
  refine ⟨hpeek, ?_, ?_⟩
  · unfold nextToken
    rw [hpeek]
  · have hskip2 : skipWs { s with
        currentPos := s.chars.length
        startPos := s.chars.length
        currentToken := none } =
        { s with
          currentPos := s.chars.length
          startPos := s.chars.length
          currentToken := none } := by
      unfold skipWs
      rw [skipWsGo_succ_none s.chars.length hget]
    unfold nextToken peekToken
    rw [hskip2]
    simp only [hget]

theorem evalStack_cons_some (tb : LexTables) (chars : List Char) (sp : Nat)
    (f : List Nat) (rest : List (List Nat)) (pos : Nat) (c : Nat)
    (hm : (accClasses tb f).min? = some c) :
    evalStack tb chars sp (f :: rest) pos = (.ok ⟨.tok c, ⟨sp, pos⟩⟩, pos, f :: rest) := by
  cases rest with
  | nil => simp [evalStack, hm]
  | cons g rest2 => simp [evalStack, hm]

theorem evalStack_single_no (tb : LexTables) (chars : List Char) (sp : Nat)
    (f : List Nat) (pos : Nat) (hf : accClasses tb f = []) :
    evalStack tb chars sp [f] pos = (.error (reportError chars sp pos), pos, [f]) := by
  simp [evalStack, hf]

theorem evalStack_pop (tb : LexTables) (chars : List Char) (sp : Nat)
    (f g : List Nat) (rest : List (List Nat)) (pos : Nat) (hf : accClasses tb f = []) :
    evalStack tb chars sp (f :: g :: rest) pos = evalStack tb chars sp (g :: rest) (pos - 1) := by
  simp [evalStack, hf]

theorem evalStack_no_accept (tb : LexTables) (chars : List Char) (sp : Nat)
    (stack : List (List Nat)) (pos : Nat) (hne : stack ≠ [])
    (h : ∀ f ∈ stack, accClasses tb f = []) :
    evalStack tb chars sp stack pos =
      (.error (reportError chars sp (pos - (stack.length - 1))),
       pos - (stack.length - 1), [stack.getLast?.getD []]) := by
  induction stack generalizing pos with
  | nil => exact absurd rfl hne
  | cons f rest ih =>
    have hf : accClasses tb f = [] := h f (List.mem_cons_self _ _)
    cases rest with
    | nil => simp [evalStack_single_no tb chars sp f pos hf]
    | cons g rest2 =>
      rw [evalStack_pop tb chars sp f g rest2 pos hf,
        ih (pos - 1) (by simp) (fun x hx => h x (List.mem_cons_of_mem _ hx))]
      have harith : pos - 1 - ((g :: rest2).length - 1) = pos - ((f :: g :: rest2).length - 1) := by
        simp only [List.length_cons]
        omega
      rw [harith, List.getLast?_cons_cons]

theorem evalStack_accept (tb : LexTables) (chars : List Char) (sp : Nat)
    (stack : List (List Nat)) (pos : Nat)
    (h : ∃ f ∈ stack, accClasses tb f ≠ []) :
    ∃ t pos2 st2, evalStack tb chars sp stack pos = (.ok t, pos2, st2) ∧
      st2 ≠ [] ∧ st2.getLast? = stack.getLast? := by
  induction stack generalizing pos with
  | nil => simp at h
  | cons f rest ih =>
    cases hm : (accClasses tb f).min? with
    | some c =>
      exact ⟨⟨.tok c, ⟨sp, pos⟩⟩, pos, f :: rest,
        evalStack_cons_some tb chars sp f rest pos c hm, List.cons_ne_nil _ _, rfl⟩
    | none =>
      have hf : accClasses tb f = [] := List.min?_eq_none_iff.mp hm
      rcases h with ⟨x, hx, hxne⟩
      rcases List.mem_cons.mp hx with rfl | hx2
      · exact absurd hf hxne
      · cases rest with
        | nil => simp at hx2
        | cons g rest2 =>
          rcases ih (pos - 1) ⟨x, hx2, hxne⟩ with ⟨t, p2, st2, heq, hne2, hlast⟩
          refine ⟨t, p2, st2, ?_, hne2, ?_⟩
          · rw [evalStack_pop tb chars sp f g rest2 pos hf, heq]
          · rw [hlast, List.getLast?_cons_cons]

theorem lexGetGo_eq (tb : LexTables) (chars : List Char) (sp : Nat) (fuel : Nat) :
    ∀ (pos : Nat) (f0 : List Nat) (rest : List (List Nat)), chars.length - pos < fuel →
    lexGetGo tb chars sp fuel pos (f0 :: rest) =
      evalStack tb chars sp
        ((chainF tb f0 (chars.drop pos)).reverse ++ (f0 :: rest))
        (pos + (chainF tb f0 (chars.drop pos)).length) := by
  induction fuel with
  | zero => intro pos f0 rest hfuel; omega
  | succ fuel ih =>
    intro pos f0 rest hfuel
    cases hg : chars[pos]? with
    | none =>
      have hdrop : chars.drop pos = [] :=
        List.drop_eq_nil_of_le (List.getElem?_eq_none_iff.mp hg)
      rw [hdrop]
      simp [lexGetGo, hg, chainF]
    | some c =>
      have hlt := get?_lt_length hg
      have hdrop := get?_drop_cons hg
      cases hs : stepFrontier tb f0 c with
      | nil =>
        have hchain : chainF tb f0 (chars.drop pos) = [] := by
          rw [hdrop]
          simp [chainF, hs]
        rw [hchain]
        simp [lexGetGo, hg, hs]
      | cons g gs =>
        have hchain : chainF tb f0 (chars.drop pos) =
            (g :: gs) :: chainF tb (g :: gs) (chars.drop (pos + 1)) := by
          rw [hdrop]
          simp [chainF, hs]
        have hrec : lexGetGo tb chars sp (fuel + 1) pos (f0 :: rest) =
            lexGetGo tb chars sp fuel (pos + 1) ((g :: gs) :: f0 :: rest) := by
          simp [lexGetGo, hg, hs]
        rw [hrec, ih (pos + 1) (g :: gs) (f0 :: rest) (by omega), hchain]
        have hstacks : (chainF tb (g :: gs) (chars.drop (pos + 1))).reverse ++
              (g :: gs) :: f0 :: rest =
            ((g :: gs) :: chainF tb (g :: gs) (chars.drop (pos + 1))).reverse ++ (f0 :: rest) := by
          simp
        have hpos : pos + 1 + (chainF tb (g :: gs) (chars.drop (pos + 1))).length =
            pos + ((g :: gs) :: chainF tb (g :: gs) (chars.drop (pos + 1))).length := by
          simp only [List.length_cons]
          omega
        rw [hstacks, hpos]

theorem mem_revchain (tb : LexTables) (ini : List Nat) (l : List Char) (f : List Nat) :
    (f ∈ (chainF tb ini l).reverse ++ [ini]) ↔ f ∈ ini :: chainF tb ini l := by
  simp only [List.mem_append, List.mem_reverse, List.mem_cons, List.mem_singleton]
  tauto

theorem peekToken_run (tb : LexTables) (s : Lexer) (ini : List Nat) (p : Nat)
    (hnone : s.currentToken = none) (hstack : s.statesStack = [ini])
    (hp : skipWsGo s.chars (s.chars.length + 1) s.currentPos = p) :
    (s.chars[p]? = none ∧
      peekToken tb s = (.ok ⟨.tEnd, ⟨p, p⟩⟩,
        { s with
          currentPos := p
          startPos := p
          currentToken := some ⟨.tEnd, ⟨p, p⟩⟩ })) ∨
    ((∃ c, s.chars[p]? = some c) ∧
      (((∀ f ∈ ini :: chainF tb ini (s.chars.drop p), accClasses tb f = []) ∧
         peekToken tb s = (.error (reportError s.chars p p), skipWs s)) ∨
       ((∃ f ∈ ini :: chainF tb ini (s.chars.drop p), accClasses tb f ≠ []) ∧
         ∃ t s2, peekToken tb s = (.ok t, s2) ∧ s2.statesStack = [ini]))) := by
  have hskip : skipWs s = { s with currentPos := p, startPos := p } := by
    unfold skipWs
    rw [hp]
  cases hc : s.chars[p]? with
  | none =>
    left
    refine ⟨rfl, ?_⟩
    simp only [peekToken, hnone, hskip, hc]
  | some c =>
    right
    refine ⟨⟨c, rfl⟩, ?_⟩
    have hget : lexGet tb { s with currentPos := p, startPos := p } =
        (match evalStack tb s.chars p
            ((chainF tb ini (s.chars.drop p)).reverse ++ [ini])
            (p + (chainF tb ini (s.chars.drop p)).length) with
         | (r, pos2, stack2) =>
           (r, { s with currentPos := pos2, startPos := p, statesStack := stack2 })) := by
      unfold lexGet
      rw [show ({ s with currentPos := p, startPos := p } : Lexer).statesStack = [ini] from hstack]
      rw [lexGetGo_eq tb s.chars p (s.chars.length + 1) p ini [] (by omega)]
    rw [hnone] at hget
    by_cases hacc : ∀ f ∈ ini :: chainF tb ini (s.chars.drop p), accClasses tb f = []
    · left
      refine ⟨hacc, ?_⟩
      have hall : ∀ f ∈ (chainF tb ini (s.chars.drop p)).reverse ++ [ini],
          accClasses tb f = [] := by
        intro f hf
        exact hacc f ((mem_revchain tb ini (s.chars.drop p) f).mp hf)
      have hne : (chainF tb ini (s.chars.drop p)).reverse ++ [ini] ≠ [] := by
        simp
      have heval := evalStack_no_accept tb s.chars p
        ((chainF tb ini (s.chars.drop p)).reverse ++ [ini])
        (p + (chainF tb ini (s.chars.drop p)).length) hne hall
      have hlen : ((chainF tb ini (s.chars.drop p)).reverse ++ [ini]).length - 1 =
          (chainF tb ini (s.chars.drop p)).length := by
        simp
      have hlast : ((chainF tb ini (s.chars.drop p)).reverse ++ [ini]).getLast?.getD [] =
          ini := by
        rw [List.getLast?_concat]
        rfl
      rw [hlen, hlast] at heval
      have harith : p + (chainF tb ini (s.chars.drop p)).length -
          (chainF tb ini (s.chars.drop p)).length = p := by omega
      rw [harith] at heval
      have hfinal : peekToken tb s =
          (.error (reportError s.chars p p),
           { s with currentPos := p, startPos := p, statesStack := [ini] }) := by
        simp only [peekToken, hnone, hskip, hc, hget, heval]
      rw [hfinal, hskip, ← hstack]
    · right
      push_neg at hacc
      rcases hacc with ⟨f, hfmem, hfne⟩
      have hex : ∃ f ∈ (chainF tb ini (s.chars.drop p)).reverse ++ [ini],
          accClasses tb f ≠ [] :=
        ⟨f, (mem_revchain tb ini (s.chars.drop p) f).mpr hfmem, hfne⟩
      refine ⟨⟨f, hfmem, hfne⟩, ?_⟩
      rcases evalStack_accept tb s.chars p _ (p + (chainF tb ini (s.chars.drop p)).length) hex
        with ⟨t, pos2, st2, heval, hne2, hlast2⟩
      rw [List.getLast?_concat] at hlast2
      refine ⟨t, { s with
        currentPos := pos2
        startPos := p
        currentToken := some t
        statesStack := [st2.getLastD []] }, ?_, ?_⟩
      · simp only [peekToken, hnone, hskip, hc, hget, heval]
      · have : st2.getLastD [] = ini := by
          rw [List.getLastD_eq_getLast?, hlast2]
          rfl
        rw [this]

/-- Claim C10: if the frontier stack holds exactly the single initial
frontier before a call, then after any `peek_token` or `next_token` call —
returning a terminal or a lexical error — it again holds exactly that
frontier; and when `peek_token` returns a lexical error, the backtracking
loop has restored the cursor to the (post-whitespace) token boundary, so
the resulting state is exactly `skip_whitespaces` of the original state
and an immediately repeated call returns the very same error and state. -/
theorem c10_frontier_stack_reset (tb : LexTables) (s : Lexer) (ini : List Nat)
    (hstack : s.statesStack = [ini]) :
    (∀ r s2, peekToken tb s = (r, s2) → s2.statesStack = [ini]) ∧
    (∀ r s2, nextToken tb s = (r, s2) → s2.statesStack = [ini]) ∧
    (s.currentToken = none →
      ∀ e s2, peekToken tb s = (.error e, s2) →
        s2 = skipWs s ∧ peekToken tb s2 = (.error e, s2)) := by
  have partA : ∀ r s2, peekToken tb s = (r, s2) → s2.statesStack = [ini] := by
    cases hct : s.currentToken with
    | some t =>
      intro r s2 h
      simp only [peekToken, hct] at h
      rw [← ((Prod.mk.injEq _ _ _ _).mp h).2, hstack]
    | none =>
      rcases peekToken_run tb s ini _ hct hstack rfl with
        ⟨_, hpeek⟩ | ⟨⟨c, hc⟩, ⟨_, hpeek⟩ | ⟨_, t, s3, hpeek, hs3⟩⟩
      · intro r s2 h
        rw [hpeek] at h
        rw [← (Prod.mk.injEq _ _ _ _).mp h |>.2, hstack]
      · intro r s2 h
        rw [hpeek] at h
        rw [← (Prod.mk.injEq _ _ _ _).mp h |>.2]
        exact hstack
      · intro r s2 h
        rw [hpeek] at h
        rw [← (Prod.mk.injEq _ _ _ _).mp h |>.2]
        exact hs3
  refine ⟨partA, ?_, ?_⟩
  · intro r s2 h
    unfold nextToken at h
    cases hpk : peekToken tb s with
    | mk r0 s0 =>
      have hs0 := partA r0 s0 hpk
      rw [hpk] at h
      cases r0 with
      | ok t =>
        rw [← (Prod.mk.injEq _ _ _ _).mp h |>.2]
        exact hs0
      | error e =>
        rw [← (Prod.mk.injEq _ _ _ _).mp h |>.2]
        exact hs0
  · intro hnone e s2 hpe
    rcases peekToken_run tb s ini _ hnone hstack rfl with
      ⟨_, hpeek⟩ | ⟨⟨c, hc⟩, ⟨hall, hpeek⟩ | ⟨⟨f, hfmem, hfne⟩, t, s3, hpeek, _⟩⟩
    · rw [hpeek] at hpe
      exact absurd ((Prod.mk.injEq _ _ _ _).mp hpe).1 (by simp)
    · rw [hpeek] at hpe
      have he : e = reportError s.chars (skipWsGo s.chars (s.chars.length + 1) s.currentPos)
          (skipWsGo s.chars (s.chars.length + 1) s.currentPos) := by
        have := ((Prod.mk.injEq _ _ _ _).mp hpe).1
        cases this
        rfl
      have hs2 : s2 = skipWs s := ((Prod.mk.injEq _ _ _ _).mp hpe).2.symm
      refine ⟨hs2, ?_⟩
      have hstop : isWs c = false := by
        exact skipWsGo_stop s.chars (s.chars.length + 1) s.currentPos (by omega) c hc
      have hskipfix : skipWsGo s.chars (s.chars.length + 1)
          (skipWsGo s.chars (s.chars.length + 1) s.currentPos) =
          skipWsGo s.chars (s.chars.length + 1) s.currentPos := by
        rw [skipWsGo_succ_some s.chars.length hc, hstop]
        simp
      have hs2fields : s2 = { s with
          currentPos := skipWsGo s.chars (s.chars.length + 1) s.currentPos
          startPos := skipWsGo s.chars (s.chars.length + 1) s.currentPos } := by
        rw [hs2]
        unfold skipWs
        rfl
      rcases peekToken_run tb s2 ini (skipWsGo s.chars (s.chars.length + 1) s.currentPos)
          (by rw [hs2fields]; exact hnone) (by rw [hs2fields]; exact hstack)
          (by rw [hs2fields]; exact hskipfix) with
        ⟨hcn, _⟩ | ⟨_, ⟨_, hpeek2⟩ | ⟨⟨g, hgmem, hgne⟩, _, _, _, _⟩⟩
      · rw [hs2fields] at hcn
        rw [hc] at hcn
        exact Option.noConfusion hcn
      · rw [hpeek2, he]
        have hchars : s2.chars = s.chars := by rw [hs2fields]
        have hskips2 : skipWs s2 = s2 := by
          rw [hs2fields]
          unfold skipWs
          rw [hskipfix]
        rw [hskips2, hchars]
      · rw [hs2fields] at hgmem
        exact absurd (hall g hgmem) hgne
    · rw [hpeek] at hpe
      exact absurd ((Prod.mk.injEq _ _ _ _).mp hpe).1 (by simp)

/-- Claim C8: with the frontier stack holding exactly the initial frontier
and no cached token, `peek_token` returns a lexical error iff, at the
token boundary reached after whitespace skipping, input remains and
neither the depth-1 initial frontier nor any frontier the match loop
pushes contains an accepting state (so backtracking reaches depth 1
without accepting); and the error message is exactly the rendered
source-line context followed by a reference to the offending character at
the boundary (the `EOF` wording would apply only at end of input, where
`peek_token` instead returns the `End` terminal). -/
theorem c8_lexical_error_iff (tb : LexTables) (s : Lexer) (ini : List Nat)
    (hnone : s.currentToken = none) (hstack : s.statesStack = [ini]) :
    ((∃ e s2, peekToken tb s = (.error e, s2)) ↔
      ((∃ c, s.chars[skipWsGo s.chars (s.chars.length + 1) s.currentPos]? = some c) ∧
       ∀ f ∈ ini :: chainF tb ini
           (s.chars.drop (skipWsGo s.chars (s.chars.length + 1) s.currentPos)),
         accClasses tb f = [])) ∧
    (∀ e s2, peekToken tb s = (.error e, s2) →
      ∃ c, s.chars[skipWsGo s.chars (s.chars.length + 1) s.currentPos]? = some c ∧
        e = showSpan s.chars ⟨skipWsGo s.chars (s.chars.length + 1) s.currentPos,
              skipWsGo s.chars (s.chars.length + 1) s.currentPos⟩ ++
            "\nerror: unexpected character found: " ++ String.mk [c]) := by
  rcases peekToken_run tb s ini _ hnone hstack rfl with
    ⟨hcn, hpeek⟩ | ⟨⟨c, hc⟩, ⟨hall, hpeek⟩ | ⟨⟨f, hfmem, hfne⟩, t, s3, hpeek, _⟩⟩
  · constructor
    · constructor
      · rintro ⟨e, s2, he⟩
        rw [hpeek] at he
        exact absurd ((Prod.mk.injEq _ _ _ _).mp he).1 (by simp)
      · rintro ⟨⟨c, hc⟩, _⟩
        rw [hcn] at hc
        exact Option.noConfusion hc
    · intro e s2 he
      rw [hpeek] at he
      exact absurd ((Prod.mk.injEq _ _ _ _).mp he).1 (by simp)
  · constructor
    · constructor
      · intro _
        exact ⟨⟨c, hc⟩, hall⟩
      · intro _
        exact ⟨_, _, hpeek⟩
    · intro e s2 he
      rw [hpeek] at he
      have he2 := ((Prod.mk.injEq _ _ _ _).mp he).1
      refine ⟨c, hc, ?_⟩
      cases he2
      unfold reportError
      rw [hc]
  · constructor
    · constructor
      · rintro ⟨e, s2, he⟩
        rw [hpeek] at he
        exact absurd ((Prod.mk.injEq _ _ _ _).mp he).1 (by simp)
      · rintro ⟨_, hall⟩
        exact absurd (hall f hfmem) hfne
    · intro e s2 he
      rw [hpeek] at he
      exact absurd ((Prod.mk.injEq _ _ _ _).mp he).1 (by simp)

/-- Concrete generated tables for the single specification `A = a`, used
to instantiate the runtime theorems. -/
def tbA : LexTables := (toLexTables 100 [("A", "a")]).getD ⟨[], [], []⟩

theorem c9_end_token_at_eof_witness :
    (peekToken tbA (fromSourceStr tbA " ")).1 = .ok ⟨.tEnd, ⟨1, 1⟩⟩ := by
  have h := (c9_end_token_at_eof tbA (fromSourceStr tbA " ") rfl (by decide) (by decide)).1
  rw [h]
  rfl

theorem c10_frontier_stack_reset_witness :
    (peekToken tbA (fromSourceStr tbA "b")).2.statesStack = [[0]] :=
  (c10_frontier_stack_reset tbA (fromSourceStr tbA "b") [0] (by rfl)).1
    (peekToken tbA (fromSourceStr tbA "b")).1
    (peekToken tbA (fromSourceStr tbA "b")).2 rfl

theorem c8_lexical_error_iff_witness :
    ∃ e s2, peekToken tbA (fromSourceStr tbA "b") = (.error e, s2) :=
  ((c8_lexical_error_iff tbA (fromSourceStr tbA "b") [0] rfl rfl).1).mpr
    ⟨⟨'b', by rfl⟩, by decide⟩

/-- The character set a single regex token denotes, as a finset — the
specification-side description of the alphabet: a literal character
contributes itself, `\d` the ten digits, `\w` the 26 lowercase letters,
operators nothing. -/
def tokenChars (t : Token) : Finset Char := (tokenCharsList t).toFinset

/-- The specification-side alphabet of a tokenized pattern: the union of
the character sets of its tokens. -/
def tokensAlphabet (ts : List Token) : Finset Char :=
  ts.foldr (fun t acc => tokenChars t ∪ acc) ∅

theorem tokensAlphabet_nil : tokensAlphabet [] = ∅ := rfl

theorem tokensAlphabet_cons (t : Token) (ts : List Token) :
    tokensAlphabet (t :: ts) = tokenChars t ∪ tokensAlphabet ts := rfl

theorem treeChars_Cat (l r : RegexNode) :
    treeChars (.Cat l r) = treeChars l ∪ treeChars r := by
  simp [treeChars, treeTerminals, Finset.image_union]

theorem treeChars_Or (l r : RegexNode) :
    treeChars (.Or l r) = treeChars l ∪ treeChars r := by
  simp [treeChars, treeTerminals, Finset.image_union]

theorem treeChars_Paren (c : RegexNode) : treeChars (.Parenthesized c) = treeChars c := rfl

theorem treeChars_Kleene (c : RegexNode) : treeChars (.Kleene c) = treeChars c := rfl

theorem treeChars_Terminal (t : RegexTerminal) : treeChars (.Terminal t) = {t.ch} := by
  simp [treeChars, treeTerminals]

theorem mkAlt_spec (cs : List Char) (n : RegexNode) (pos : Nat) (al : Finset Char) :
    (mkAlt cs n pos al).2.2 = al ∪ cs.toFinset ∧
    treeChars (mkAlt cs n pos al).1 = treeChars n ∪ cs.toFinset := by
  induction cs generalizing n pos al with
  | nil => simp [mkAlt]
  | cons c cs ih =>
    simp only [mkAlt]
    rcases ih (.Or n (.Terminal ⟨pos, c⟩)) (pos + 1) (insert c al) with ⟨h1, h2⟩
    constructor
    · rw [h1]
      ext x
      simp only [Finset.mem_union, Finset.mem_insert, List.mem_toFinset, List.mem_cons]
      tauto
    · rw [h2, treeChars_Or, treeChars_Terminal]
      ext x
      simp only [Finset.mem_union, Finset.mem_singleton, List.mem_toFinset, List.mem_cons]
      tauto

/-- The per-function conclusion of the alphabet invariant: the output
alphabet is the input alphabet extended by exactly the characters of the
node built, and those characters are exactly what the consumed tokens
denote. -/
def Pst (o : POut) (toks : List Token) (al : Finset Char) : Prop :=
  o.alpha = al ∪ treeChars o.node ∧
  tokensAlphabet toks = treeChars o.node ∪ tokensAlphabet o.toks

/-- The loop variant of `Pst`, relative to the accumulator node. -/
def PLst (acc : RegexNode) (o : POut) (toks : List Token) (al : Finset Char) : Prop :=
  ∃ T : Finset Char, o.alpha = al ∪ T ∧ treeChars o.node = treeChars acc ∪ T ∧
    tokensAlphabet toks = T ∪ tokensAlphabet o.toks

theorem parser_alpha : ∀ fuel : Nat,
    (∀ toks pos al o, p1 fuel toks pos al = .ok o → Pst o toks al) ∧
    (∀ acc toks pos al o, p1loop fuel acc toks pos al = .ok o → PLst acc o toks al) ∧
    (∀ toks pos al o, p2 fuel toks pos al = .ok o → Pst o toks al) ∧
    (∀ acc toks pos al o, p2loop fuel acc toks pos al = .ok o → PLst acc o toks al) ∧
    (∀ toks pos al o, p3 fuel toks pos al = .ok o → Pst o toks al) ∧
    (∀ toks pos al o, p4 fuel toks pos al = .ok o → Pst o toks al) ∧
    (∀ toks pos al o, p5 fuel toks pos al = .ok o → Pst o toks al) := by
  intro fuel
  induction fuel with
  | zero =>
    refine ⟨?_, ?_, ?_, ?_, ?_, ?_, ?_⟩
    · intro toks pos al o h; exact Except.noConfusion h
    · intro acc toks pos al o h; exact Except.noConfusion h
    · intro toks pos al o h; exact Except.noConfusion h
    · intro acc toks pos al o h; exact Except.noConfusion h
    · intro toks pos al o h; exact Except.noConfusion h
    · intro toks pos al o h; exact Except.noConfusion h
    · intro toks pos al o h; exact Except.noConfusion h
  | succ fuel ih =>
    obtain ⟨ih1, ih1l, ih2, ih2l, ih3, ih4, ih5⟩ := ih
    have hp5 : ∀ toks pos al o, p5 (fuel + 1) toks pos al = .ok o → Pst o toks al := by
      intro toks pos al o h
      simp only [p5] at h
      cases toks with
      | nil => exact Except.noConfusion h
      | cons t rest =>
        cases t with
        | Char c =>
          cases h
          constructor
          · show insert c al = al ∪ treeChars (.Terminal ⟨pos, c⟩)
            rw [treeChars_Terminal]
            ext x
            simp only [Finset.mem_insert, Finset.mem_union, Finset.mem_singleton]
            tauto
          · show tokensAlphabet (Token.Char c :: rest) =
              treeChars (.Terminal ⟨pos, c⟩) ∪ tokensAlphabet rest
            rw [tokensAlphabet_cons, treeChars_Terminal]
            rfl
        | Special sp =>
          cases sp with
          | Number =>
            rcases hmk : mkAlt "123456789".toList (.Terminal ⟨pos, '0'⟩) (pos + 1)
              (insert '0' al) with ⟨n, pos2, al2⟩
            rw [hmk] at h
            cases h
            have hs := mkAlt_spec "123456789".toList (.Terminal ⟨pos, '0'⟩) (pos + 1)
              (insert '0' al)
            rw [hmk] at hs
            have h1 : al2 = insert '0' al ∪ "123456789".toList.toFinset := hs.1
            have h2 : treeChars n =
                treeChars (.Terminal ⟨pos, '0'⟩) ∪ "123456789".toList.toFinset := hs.2
            rw [treeChars_Terminal] at h2
            constructor
            · show al2 = al ∪ treeChars n
              rw [h1, h2]
              ext x
              simp only [Finset.mem_insert, Finset.mem_union, Finset.mem_singleton,
                List.mem_toFinset]
              tauto
            · show tokensAlphabet (Token.Special .Number :: rest) =
                treeChars n ∪ tokensAlphabet rest
              rw [tokensAlphabet_cons, h2]
              have hdig : tokenChars (Token.Special .Number) =
                  {'0'} ∪ "123456789".toList.toFinset := by decide
              rw [hdig, Finset.union_assoc]
          | Lowercase =>
            rcases hmk : mkAlt "bcdefghijklmnopqrstuvwxyz".toList (.Terminal ⟨pos, 'a'⟩)
              (pos + 1) (insert 'a' al) with ⟨n, pos2, al2⟩
            rw [hmk] at h
            cases h
            have hs := mkAlt_spec "bcdefghijklmnopqrstuvwxyz".toList (.Terminal ⟨pos, 'a'⟩)
              (pos + 1) (insert 'a' al)
            rw [hmk] at hs
            have h1 : al2 = insert 'a' al ∪ "bcdefghijklmnopqrstuvwxyz".toList.toFinset := hs.1
            have h2 : treeChars n =
                treeChars (.Terminal ⟨pos, 'a'⟩) ∪ "bcdefghijklmnopqrstuvwxyz".toList.toFinset := hs.2
            rw [treeChars_Terminal] at h2
            constructor
            · show al2 = al ∪ treeChars n
              rw [h1, h2]
              ext x
              simp only [Finset.mem_insert, Finset.mem_union, Finset.mem_singleton,
                List.mem_toFinset]
              tauto
            · show tokensAlphabet (Token.Special .Lowercase :: rest) =
                treeChars n ∪ tokensAlphabet rest
              rw [tokensAlphabet_cons, h2]
              have hlow : tokenChars (Token.Special .Lowercase) =
                  {'a'} ∪ "bcdefghijklmnopqrstuvwxyz".toList.toFinset := by decide
              rw [hlow, Finset.union_assoc]
        | Star => exact Except.noConfusion h
        | Or => exact Except.noConfusion h
        | LeftParen => exact Except.noConfusion h
        | RightParen => exact Except.noConfusion h
        | End => exact Except.noConfusion h
    have hp4 : ∀ toks pos al o, p4 (fuel + 1) toks pos al = .ok o → Pst o toks al := by
      intro toks pos al o h
      simp only [p4] at h
      by_cases hlp : peekTok toks = Token.LeftParen
      · rw [if_pos hlp] at h
        cases h1 : p1 fuel toks.tail pos al with
        | error e => rw [h1] at h; exact Except.noConfusion h
        | ok o1 =>
          rw [h1] at h
          have h' : (if peekTok o1.toks = Token.RightParen then
              Except.ok (⟨.Parenthesized o1.node, o1.toks.tail, o1.pos, o1.alpha⟩ : POut)
            else Except.error "Expected closing right parenthesis") = Except.ok o := h
          rcases ih1 toks.tail pos al o1 h1 with ⟨ha1, ht1⟩
          by_cases hrp : peekTok o1.toks = Token.RightParen
          · rw [if_pos hrp] at h'
            cases h'
            have htoks : toks = Token.LeftParen :: toks.tail := by
              cases toks with
              | nil => simp [peekTok] at hlp
              | cons t rest =>
                simp only [peekTok] at hlp
                rw [hlp]
                rfl
            have htoks1 : o1.toks = Token.RightParen :: o1.toks.tail := by
              cases htt : o1.toks with
              | nil => rw [htt] at hrp; simp [peekTok] at hrp
              | cons t rest =>
                rw [htt] at hrp
                simp only [peekTok] at hrp
                rw [hrp]
                rfl
            constructor
            · show o1.alpha = al ∪ treeChars (.Parenthesized o1.node)
              rw [treeChars_Paren, ha1]
            · show tokensAlphabet toks =
                treeChars (.Parenthesized o1.node) ∪ tokensAlphabet o1.toks.tail
              rw [treeChars_Paren]
              conv_lhs => rw [htoks]
              rw [tokensAlphabet_cons, ht1]
              conv_lhs => rw [htoks1]
              rw [tokensAlphabet_cons]
              show ∅ ∪ (treeChars o1.node ∪ (∅ ∪ tokensAlphabet o1.toks.tail)) = _
              ext x
              simp only [Finset.mem_union, Finset.not_mem_empty]
              tauto
          · rw [if_neg hrp] at h'
            exact Except.noConfusion h'
      · rw [if_neg hlp] at h
        exact ih5 toks pos al o h
    have hp3 : ∀ toks pos al o, p3 (fuel + 1) toks pos al = .ok o → Pst o toks al := by
      intro toks pos al o h
      simp only [p3] at h
      cases h4 : p4 fuel toks pos al with
      | error e => rw [h4] at h; exact Except.noConfusion h
      | ok o4 =>
        rw [h4] at h
        have h' : (if peekTok o4.toks = Token.Star then
            Except.ok (⟨.Kleene o4.node, o4.toks.tail, o4.pos, o4.alpha⟩ : POut)
          else Except.ok o4) = Except.ok o := h
        rcases ih4 toks pos al o4 h4 with ⟨ha4, ht4⟩
        by_cases hst : peekTok o4.toks = Token.Star
        · rw [if_pos hst] at h'
          cases h'
          have htoks4 : o4.toks = Token.Star :: o4.toks.tail := by
            cases htt : o4.toks with
            | nil => rw [htt] at hst; simp [peekTok] at hst
            | cons t rest =>
              rw [htt] at hst
              simp only [peekTok] at hst
              rw [hst]
              rfl
          constructor
          · show o4.alpha = al ∪ treeChars (.Kleene o4.node)
            rw [treeChars_Kleene, ha4]
          · show tokensAlphabet toks =
              treeChars (.Kleene o4.node) ∪ tokensAlphabet o4.toks.tail
            rw [treeChars_Kleene, ht4]
            conv_lhs => rw [htoks4]
            rw [tokensAlphabet_cons]
            show treeChars o4.node ∪ (∅ ∪ tokensAlphabet o4.toks.tail) = _
            ext x
            simp only [Finset.mem_union, Finset.not_mem_empty]
            tauto
        · rw [if_neg hst] at h'
          cases h'
          exact ⟨ha4, ht4⟩
    have hp2l : ∀ acc toks pos al o, p2loop (fuel + 1) acc toks pos al = .ok o →
        PLst acc o toks al := by
      intro acc toks pos al o h
      simp only [p2loop] at h
      by_cases hf : isFollowP2 (peekTok toks) = true
      · rw [if_pos hf] at h
        cases h
        exact ⟨∅, by simp, by simp, by simp⟩
      · rw [if_neg hf] at h
        cases h3 : p3 fuel toks pos al with
        | error e => rw [h3] at h; exact Except.noConfusion h
        | ok o3 =>
          rw [h3] at h
          rcases ih3 toks pos al o3 h3 with ⟨ha3, ht3⟩
          rcases ih2l (.Cat acc o3.node) o3.toks o3.pos o3.alpha o h with ⟨T, hoa, hon, hot⟩
          refine ⟨treeChars o3.node ∪ T, ?_, ?_, ?_⟩
          · rw [hoa, ha3]
            ext x
            simp only [Finset.mem_union]
            tauto
          · rw [hon, treeChars_Cat]
            ext x
            simp only [Finset.mem_union]
            tauto
          · rw [ht3, hot]
            ext x
            simp only [Finset.mem_union]
            tauto
    have hp2 : ∀ toks pos al o, p2 (fuel + 1) toks pos al = .ok o → Pst o toks al := by
      intro toks pos al o h
      simp only [p2] at h
      cases h3 : p3 fuel toks pos al with
      | error e => rw [h3] at h; exact Except.noConfusion h
      | ok o3 =>
        rw [h3] at h
        rcases ih3 toks pos al o3 h3 with ⟨ha3, ht3⟩
        rcases ih2l o3.node o3.toks o3.pos o3.alpha o h with ⟨T, hoa, hon, hot⟩
        constructor
        · rw [hoa, ha3, hon]
          ext x
          simp only [Finset.mem_union]
          tauto
        · rw [ht3, hot, hon]
          ext x
          simp only [Finset.mem_union]
          tauto
    have hp1l : ∀ acc toks pos al o, p1loop (fuel + 1) acc toks pos al = .ok o →
        PLst acc o toks al := by
      intro acc toks pos al o h
      simp only [p1loop] at h
      by_cases hor : peekTok toks = Token.Or
      · rw [if_pos hor] at h
        cases h2 : p2 fuel toks.tail pos al with
        | error e => rw [h2] at h; exact Except.noConfusion h
        | ok o2 =>
          rw [h2] at h
          rcases ih2 toks.tail pos al o2 h2 with ⟨ha2, ht2⟩
          rcases ih1l (.Or acc o2.node) o2.toks o2.pos o2.alpha o h with ⟨T, hoa, hon, hot⟩
          refine ⟨treeChars o2.node ∪ T, ?_, ?_, ?_⟩
          · rw [hoa, ha2]
            ext x
            simp only [Finset.mem_union]
            tauto
          · rw [hon, treeChars_Or]
            ext x
            simp only [Finset.mem_union]
            tauto
          · have htoks : toks = Token.Or :: toks.tail := by
              cases toks with
              | nil => simp [peekTok] at hor
              | cons t rest =>
                simp only [peekTok] at hor
                rw [hor]
                rfl
            conv_lhs => rw [htoks]
            rw [tokensAlphabet_cons, ht2, hot]
            show ∅ ∪ (treeChars o2.node ∪ (T ∪ tokensAlphabet o.toks)) = _
            ext x
            simp only [Finset.mem_union, Finset.not_mem_empty]
            tauto
      · rw [if_neg hor] at h
        cases h
        exact ⟨∅, by simp, by simp, by simp⟩
    have hp1 : ∀ toks pos al o, p1 (fuel + 1) toks pos al = .ok o → Pst o toks al := by
      intro toks pos al o h
      simp only [p1] at h
      cases h2 : p2 fuel toks pos al with
      | error e => rw [h2] at h; exact Except.noConfusion h
      | ok o2 =>
        rw [h2] at h
        rcases ih2 toks pos al o2 h2 with ⟨ha2, ht2⟩
        rcases ih1l o2.node o2.toks o2.pos o2.alpha o h with ⟨T, hoa, hon, hot⟩
        constructor
        · rw [hoa, ha2, hon]
          ext x
          simp only [Finset.mem_union]
          tauto
        · rw [ht2, hot, hon]
          ext x
          simp only [Finset.mem_union]
          tauto
    exact ⟨hp1, hp1l, hp2, hp2l, hp3, hp4, hp5⟩

theorem tailSuffix (l : List Token) : l.tail <:+ l := by
  cases l with
  | nil => exact List.suffix_refl []
  | cons t rest => exact ⟨[t], rfl⟩

theorem parser_suffix : ∀ fuel : Nat,
    (∀ toks pos al o, p1 fuel toks pos al = .ok o → o.toks <:+ toks) ∧
    (∀ acc toks pos al o, p1loop fuel acc toks pos al = .ok o → o.toks <:+ toks) ∧
    (∀ toks pos al o, p2 fuel toks pos al = .ok o → o.toks <:+ toks) ∧
    (∀ acc toks pos al o, p2loop fuel acc toks pos al = .ok o → o.toks <:+ toks) ∧
    (∀ toks pos al o, p3 fuel toks pos al = .ok o → o.toks <:+ toks) ∧
    (∀ toks pos al o, p4 fuel toks pos al = .ok o → o.toks <:+ toks) ∧
    (∀ toks pos al o, p5 fuel toks pos al = .ok o → o.toks <:+ toks) := by
  intro fuel
  induction fuel with
  | zero =>
    refine ⟨?_, ?_, ?_, ?_, ?_, ?_, ?_⟩
    · intro toks pos al o h; exact Except.noConfusion h
    · intro acc toks pos al o h; exact Except.noConfusion h
    · intro toks pos al o h; exact Except.noConfusion h
    · intro acc toks pos al o h; exact Except.noConfusion h
    · intro toks pos al o h; exact Except.noConfusion h
    · intro toks pos al o h; exact Except.noConfusion h
    · intro toks pos al o h; exact Except.noConfusion h
  | succ fuel ih =>
    obtain ⟨ih1, ih1l, ih2, ih2l, ih3, ih4, ih5⟩ := ih
    have hp5 : ∀ toks pos al o, p5 (fuel + 1) toks pos al = .ok o → o.toks <:+ toks := by
      intro toks pos al o h
      simp only [p5] at h
      cases toks with
      | nil => exact Except.noConfusion h
      | cons t rest =>
        cases t with
        | Char c =>
          cases h
          exact ⟨[Token.Char c], rfl⟩
        | Special sp =>
          cases sp with
          | Number =>
            rcases hmk : mkAlt "123456789".toList (.Terminal ⟨pos, '0'⟩) (pos + 1)
              (insert '0' al) with ⟨n, pos2, al2⟩
            rw [hmk] at h
            cases h
            exact ⟨[Token.Special .Number], rfl⟩
          | Lowercase =>
            rcases hmk : mkAlt "bcdefghijklmnopqrstuvwxyz".toList (.Terminal ⟨pos, 'a'⟩)
              (pos + 1) (insert 'a' al) with ⟨n, pos2, al2⟩
            rw [hmk] at h
            cases h
            exact ⟨[Token.Special .Lowercase], rfl⟩
        | Star => exact Except.noConfusion h
        | Or => exact Except.noConfusion h
        | LeftParen => exact Except.noConfusion h
        | RightParen => exact Except.noConfusion h
        | End => exact Except.noConfusion h
    have hp4 : ∀ toks pos al o, p4 (fuel + 1) toks pos al = .ok o → o.toks <:+ toks := by
      intro toks pos al o h
      simp only [p4] at h
      by_cases hlp : peekTok toks = Token.LeftParen
      · rw [if_pos hlp] at h
        cases h1 : p1 fuel toks.tail pos al with
        | error e => rw [h1] at h; exact Except.noConfusion h
        | ok o1 =>
          rw [h1] at h
          have h' : (if peekTok o1.toks = Token.RightParen then
              Except.ok (⟨.Parenthesized o1.node, o1.toks.tail, o1.pos, o1.alpha⟩ : POut)
            else Except.error "Expected closing right parenthesis") = Except.ok o := h
          by_cases hrp : peekTok o1.toks = Token.RightParen
          · rw [if_pos hrp] at h'
            cases h'
            exact ((tailSuffix o1.toks).trans (ih1 toks.tail pos al o1 h1)).trans
              (tailSuffix toks)
          · rw [if_neg hrp] at h'
            exact Except.noConfusion h'
      · rw [if_neg hlp] at h
        exact ih5 toks pos al o h
    have hp3 : ∀ toks pos al o, p3 (fuel + 1) toks pos al = .ok o → o.toks <:+ toks := by
      intro toks pos al o h
      simp only [p3] at h
      cases h4 : p4 fuel toks pos al with
      | error e => rw [h4] at h; exact Except.noConfusion h
      | ok o4 =>
        rw [h4] at h
        have h' : (if peekTok o4.toks = Token.Star then
            Except.ok (⟨.Kleene o4.node, o4.toks.tail, o4.pos, o4.alpha⟩ : POut)
          else Except.ok o4) = Except.ok o := h
        by_cases hst : peekTok o4.toks = Token.Star
        · rw [if_pos hst] at h'
          cases h'
          exact (tailSuffix o4.toks).trans (ih4 toks pos al o4 h4)
        · rw [if_neg hst] at h'
          cases h'
          exact ih4 toks pos al o h4
    have hp2l : ∀ acc toks pos al o, p2loop (fuel + 1) acc toks pos al = .ok o →
        o.toks <:+ toks := by
      intro acc toks pos al o h
      simp only [p2loop] at h
      by_cases hf : isFollowP2 (peekTok toks) = true
      · rw [if_pos hf] at h
        cases h
        exact List.suffix_refl _
      · rw [if_neg hf] at h
        cases h3 : p3 fuel toks pos al with
        | error e => rw [h3] at h; exact Except.noConfusion h
        | ok o3 =>
          rw [h3] at h
          exact (ih2l (.Cat acc o3.node) o3.toks o3.pos o3.alpha o h).trans
            (ih3 toks pos al o3 h3)
    have hp2 : ∀ toks pos al o, p2 (fuel + 1) toks pos al = .ok o → o.toks <:+ toks := by
      intro toks pos al o h
      simp only [p2] at h
      cases h3 : p3 fuel toks pos al with
      | error e => rw [h3] at h; exact Except.noConfusion h
      | ok o3 =>
        rw [h3] at h
        exact (ih2l o3.node o3.toks o3.pos o3.alpha o h).trans (ih3 toks pos al o3 h3)
    have hp1l : ∀ acc toks pos al o, p1loop (fuel + 1) acc toks pos al = .ok o →
        o.toks <:+ toks := by
      intro acc toks pos al o h
      simp only [p1loop] at h
      by_cases hor : peekTok toks = Token.Or
      · rw [if_pos hor] at h
        cases h2 : p2 fuel toks.tail pos al with
        | error e => rw [h2] at h; exact Except.noConfusion h
        | ok o2 =>
          rw [h2] at h
          exact ((ih1l (.Or acc o2.node) o2.toks o2.pos o2.alpha o h).trans
            (ih2 toks.tail pos al o2 h2)).trans (tailSuffix toks)
      · rw [if_neg hor] at h
        cases h
        exact List.suffix_refl _
    have hp1 : ∀ toks pos al o, p1 (fuel + 1) toks pos al = .ok o → o.toks <:+ toks := by
      intro toks pos al o h
      simp only [p1] at h
      cases h2 : p2 fuel toks pos al with
      | error e => rw [h2] at h; exact Except.noConfusion h
      | ok o2 =>
        rw [h2] at h
        exact (ih1l o2.node o2.toks o2.pos o2.alpha o h).trans (ih2 toks pos al o2 h2)
    exact ⟨hp1, hp1l, hp2, hp2l, hp3, hp4, hp5⟩


theorem noend_map_step (tok : Token) (hne : tok ≠ Token.End) (rest2 : List Char)
    (ih : ∀ ts, tokenize rest2 = .ok ts → Token.End ∉ ts) :
    ∀ ts, (tokenize rest2).map (tok :: ·) = .ok ts → Token.End ∉ ts := by
  intro ts h
  cases ht : tokenize rest2 with
  | error e => rw [ht] at h; exact Except.noConfusion h
  | ok ts2 =>
    rw [ht] at h
    have h' : Except.ok (tok :: ts2) = Except.ok ts := h
    cases h'
    intro hmem
    rcases List.mem_cons.mp hmem with heq | hmem2
    · exact hne heq.symm
    · exact ih ts2 ht hmem2

theorem tokenize_no_end : ∀ (l : List Char) (ts : List Token),
    tokenize l = .ok ts → Token.End ∉ ts := by
  intro l
  induction l using tokenize.induct with
  | case1 =>
    intro ts h
    cases h
    simp
  | case2 rest ih =>
    have heq : tokenize ('*' :: rest) = (tokenize rest).map (Token.Star :: ·) := by
      simp [tokenize]
    intro ts h
    rw [heq] at h
    exact noend_map_step Token.Star (by simp) rest ih ts h
  | case3 rest ih =>
    have heq : tokenize ('|' :: rest) = (tokenize rest).map (Token.Or :: ·) := by
      simp [tokenize]
    intro ts h
    rw [heq] at h
    exact noend_map_step Token.Or (by simp) rest ih ts h
  | case4 rest ih =>
    have heq : tokenize ('(' :: rest) = (tokenize rest).map (Token.LeftParen :: ·) := by
      simp [tokenize]
    intro ts h
    rw [heq] at h
    exact noend_map_step Token.LeftParen (by simp) rest ih ts h
  | case5 rest ih =>
    have heq : tokenize (')' :: rest) = (tokenize rest).map (Token.RightParen :: ·) := by
      simp [tokenize]
    intro ts h
    rw [heq] at h
    exact noend_map_step Token.RightParen (by simp) rest ih ts h
  | case6 c rest2 hc ih =>
    have heq : tokenize ('\\' :: c :: rest2) = (tokenize rest2).map (Token.Char c :: ·) := by
      simp [tokenize, hc]
    intro ts h
    rw [heq] at h
    exact noend_map_step (Token.Char c) (by simp) rest2 ih ts h
  | case7 rest2 hc ih =>
    have heq : tokenize ('\\' :: 'd' :: rest2) =
        (tokenize rest2).map (Token.Special .Number :: ·) := by
      simp [tokenize]
    intro ts h
    rw [heq] at h
    exact noend_map_step (Token.Special .Number) (by simp) rest2 ih ts h
  | case8 rest2 hc hd ih =>
    have heq : tokenize ('\\' :: 'w' :: rest2) =
        (tokenize rest2).map (Token.Special .Lowercase :: ·) := by
      simp [tokenize]
    intro ts h
    rw [heq] at h
    exact noend_map_step (Token.Special .Lowercase) (by simp) rest2 ih ts h
  | case9 c rest2 hc hd hw =>
    have heq : tokenize ('\\' :: c :: rest2) =
        .error "Error while parsing special character" := by
      simp [tokenize, hc, hd, hw]
    intro ts h
    rw [heq] at h
    exact Except.noConfusion h
  | case10 =>
    have heq : tokenize ['\\'] = .error "Error while parsing special character" := by
      simp [tokenize]
    intro ts h
    rw [heq] at h
    exact Except.noConfusion h
  | case11 c rest h1 h2 h3 h4 h5 ih =>
    have heq : tokenize (c :: rest) = (tokenize rest).map (Token.Char c :: ·) := by
      simp [tokenize, h1, h2, h3, h4, h5]
    intro ts h
    rw [heq] at h
    exact noend_map_step (Token.Char c) (by simp) rest ih ts h

theorem nul_mem_tokensAlphabet (ts : List Token) :
    '\x00' ∈ tokensAlphabet ts → Token.Char '\x00' ∈ ts := by
  induction ts with
  | nil =>
    rw [tokensAlphabet_nil]
    intro h
    exact absurd h (Finset.not_mem_empty _)
  | cons t rest ih =>
    rw [tokensAlphabet_cons]
    intro h
    rcases Finset.mem_union.mp h with h | h
    · cases t with
      | Char c =>
        have : '\x00' = c := by
          simpa [tokenChars, tokenCharsList] using h
        rw [this]
        exact List.mem_cons_self _ _
      | Special sp =>
        cases sp with
        | Number => exact absurd h (by decide)
        | Lowercase => exact absurd h (by decide)
      | Star => exact absurd h (by simp [tokenChars, tokenCharsList])
      | Or => exact absurd h (by simp [tokenChars, tokenCharsList])
      | LeftParen => exact absurd h (by simp [tokenChars, tokenCharsList])
      | RightParen => exact absurd h (by simp [tokenChars, tokenCharsList])
      | End => exact absurd h (by simp [tokenChars, tokenCharsList])
    · exact List.mem_cons_of_mem _ (ih h)

/-- Claim C7, amended: for every pattern accepted by the Pattern Parser,
the returned alphabet equals exactly the union, over the pattern's regex
tokens, of the characters they denote (a literal character — including an
escaped special — contributes itself, `\d` the ten digits, `\w` the 26
lowercase letters, operators nothing); consequently the alphabet contains
the sentinel character `'\0'` only when the pattern itself contains a
literal NUL character. -/
theorem c7_alphabet_exact (fuel : Nat) (pat : String) (toks : List Token)
    (tree : RegexNode) (alpha : Finset Char)
    (htok : tokenize pat.toList = .ok toks)
    (hparse : parseTokens fuel toks = .ok (tree, alpha)) :
    alpha = tokensAlphabet toks ∧
    ('\x00' ∈ alpha → Token.Char '\x00' ∈ toks) := by
  unfold parseTokens at hparse
  cases h1 : p1 fuel toks 0 ∅ with
  | error e => rw [h1] at hparse; exact Except.noConfusion hparse
  | ok o =>
    rw [h1] at hparse
    have h' : (if peekTok o.toks = Token.End then
        Except.ok ((.Cat o.node (.Terminal ⟨o.pos, '\x00'⟩) : RegexNode), o.alpha)
      else Except.error "Expected EOF") = Except.ok (tree, alpha) := hparse
    by_cases hend : peekTok o.toks = Token.End
    · rw [if_pos hend] at h'
      have halpha : alpha = o.alpha := (Prod.mk.injEq _ _ _ _).mp
        ((Except.ok.injEq _ _).mp h') |>.2.symm
      have hsfx := (parser_suffix fuel).1 toks 0 ∅ o h1
      have hnoend := tokenize_no_end pat.toList toks htok
      have hnil : o.toks = [] := by
        cases ht : o.toks with
        | nil => rfl
        | cons t rest =>
          rw [ht] at hend
          simp only [peekTok] at hend
          have hmem : Token.End ∈ toks := by
            apply hsfx.subset
            rw [ht, ← hend]
            exact List.mem_cons_self _ _
          exact absurd hmem hnoend
      rcases (parser_alpha fuel).1 toks 0 ∅ o h1 with ⟨ha, htk⟩
      have hmain : alpha = tokensAlphabet toks := by
        rw [halpha, htk, hnil, tokensAlphabet_nil, ha]
        ext x
        simp only [Finset.mem_union, Finset.not_mem_empty]
        tauto
      exact ⟨hmain, fun hz => nul_mem_tokensAlphabet toks (hmain ▸ hz)⟩
    · rw [if_neg hend] at h'
      exact Except.noConfusion h'

theorem c7_alphabet_exact_witness :
    (parseRegexF 100 "a(bc)*|\\d").toOption.map Prod.snd =
      some (tokensAlphabet [Token.Char 'a', Token.LeftParen, Token.Char 'b', Token.Char 'c',
        Token.RightParen, Token.Star, Token.Or, Token.Special .Number]) ∧
    tokensAlphabet [Token.Char 'a', Token.LeftParen, Token.Char 'b', Token.Char 'c',
        Token.RightParen, Token.Star, Token.Or, Token.Special .Number] =
      {'a', 'b', 'c', '0', '1', '2', '3', '4', '5', '6', '7', '8', '9'} := by
  constructor
  · have h := c7_alphabet_exact 100 "a(bc)*|\\d"
      [Token.Char 'a', Token.LeftParen, Token.Char 'b', Token.Char 'c',
        Token.RightParen, Token.Star, Token.Or, Token.Special .Number]
      ((parseRegexF 100 "a(bc)*|\\d").toOption.map Prod.fst |>.getD (.Terminal ⟨0, 'z'⟩))
      ((parseRegexF 100 "a(bc)*|\\d").toOption.map Prod.snd |>.getD ∅)
      (by rfl) (by rfl)
    rw [show (parseRegexF 100 "a(bc)*|\\d").toOption.map Prod.snd =
      some ((parseRegexF 100 "a(bc)*|\\d").toOption.map Prod.snd |>.getD ∅) from rfl]
    rw [h.1]
  · decide

theorem getElem?_lt {α : Type} {l : List α} {n : Nat} {a : α} (h : l[n]? = some a) :
    n < l.length := by
  by_contra hc
  rw [List.getElem?_eq_none (by omega)] at h
  exact Option.noConfusion h

theorem getElem?_mem_list {α : Type} {l : List α} {n : Nat} {a : α} (h : l[n]? = some a) :
    a ∈ l := by
  induction l generalizing n with
  | nil => simp at h
  | cons x xs ih =>
    cases n with
    | zero =>
      simp only [List.getElem?_cons_zero, Option.some.injEq] at h
      rw [← h]
      exact List.mem_cons_self _ _
    | succ m =>
      simp only [List.getElem?_cons_succ] at h
      exact List.mem_cons_of_mem _ (ih h)

theorem findIdx?_spec (p : DfaState → Bool) (l : List DfaState) :
    ∀ i, l.findIdx? p = some i → ∃ x, l[i]? = some x ∧ p x = true := by
  induction l with
  | nil => intro i h; simp at h
  | cons a l ih =>
    intro i h
    rw [List.findIdx?_cons] at h
    by_cases hp : p a = true
    · rw [if_pos hp] at h
      have h' : some 0 = some i := h
      cases h'
      exact ⟨a, by simp, hp⟩
    · rw [if_neg hp, List.findIdx?_succ] at h
      cases hmap : l.findIdx? p with
      | none =>
        rw [hmap] at h
        exact Option.noConfusion h
      | some j =>
        rw [hmap] at h
        have h' : some (j + 1) = some i := h
        cases h'
        rcases ih j hmap with ⟨x, hx, hpx⟩
        exact ⟨x, by simpa using hx, hpx⟩

theorem firstpos_subset (n : RegexNode) : firstpos n ⊆ treeTerminals n := by
  induction n with
  | Cat l r ihl ihr =>
    simp only [firstpos, treeTerminals]
    split
    · exact Finset.union_subset (ihl.trans Finset.subset_union_left)
        (ihr.trans Finset.subset_union_right)
    · exact ihl.trans Finset.subset_union_left
  | Or l r ihl ihr =>
    simp only [firstpos, treeTerminals]
    exact Finset.union_subset (ihl.trans Finset.subset_union_left)
      (ihr.trans Finset.subset_union_right)
  | Parenthesized c ihc => exact ihc
  | Kleene c ihc => exact ihc
  | Terminal t => exact Finset.Subset.refl _

theorem firstpos_nonempty (n : RegexNode) : (firstpos n).Nonempty := by
  induction n with
  | Cat l r ihl ihr =>
    simp only [firstpos]
    split
    · rcases ihl with ⟨x, hx⟩
      exact ⟨x, Finset.mem_union_left _ hx⟩
    · exact ihl
  | Or l r ihl ihr =>
    rcases ihl with ⟨x, hx⟩
    exact ⟨x, Finset.mem_union_left _ hx⟩
  | Parenthesized c ihc => exact ihc
  | Kleene c ihc => exact ihc
  | Terminal t => exact ⟨t, Finset.mem_singleton_self t⟩

theorem followPos_subset (n : RegexNode) (t : RegexTerminal) :
    followPos n t ⊆ treeTerminals n := by
  induction n with
  | Cat l r ihl ihr =>
    simp only [followPos, treeTerminals]
    refine Finset.union_subset (Finset.union_subset ?_
      (ihl.trans Finset.subset_union_left)) (ihr.trans Finset.subset_union_right)
    split
    · exact (firstpos_subset r).trans Finset.subset_union_right
    · exact Finset.empty_subset _
  | Or l r ihl ihr =>
    simp only [followPos, treeTerminals]
    exact ihl.trans Finset.subset_union_left
  | Parenthesized c ihc => exact ihc
  | Kleene c ihc =>
    simp only [followPos, treeTerminals]
    refine Finset.union_subset ?_ ihc
    split
    · exact firstpos_subset c
    · exact Finset.empty_subset _
  | Terminal t0 => simp [followPos]

theorem followUnion_subset (root : RegexNode) (S : Finset RegexTerminal) (c : Char) :
    followUnion root S c ⊆ treeTerminals root := by
  unfold followUnion
  intro x hx
  rcases Finset.mem_sup.mp hx with ⟨t, _, hxt⟩
  exact followPos_subset root t hxt

theorem addNext_length (states : List DfaState) (v : Nat) (c : Char) (idx : Nat) :
    (addNext states v c idx).length = states.length := by
  unfold addNext
  cases hv : states[v]? with
  | none => rfl
  | some sv => exact List.length_set states v _

theorem addNext_terminals (states : List DfaState) (v : Nat) (c : Char) (idx k : Nat) :
    ((addNext states v c idx).getD k default).terminals =
      (states.getD k default).terminals := by
  unfold addNext
  cases hv : states[v]? with
  | none => rfl
  | some sv =>
    rw [List.getD_eq_getElem?_getD, List.getD_eq_getElem?_getD, List.getElem?_set]
    by_cases hkv : v = k
    · subst hkv
      rw [if_pos rfl, if_pos (getElem?_lt hv), hv]
      rfl
    · rw [if_neg hkv]

theorem addNext_next_mem (states : List DfaState) (v : Nat) (c : Char) (idx k : Nat)
    (c2 : Char) (j : Nat)
    (h : (c2, j) ∈ ((addNext states v c idx).getD k default).next) :
    (c2, j) ∈ (states.getD k default).next ∨ (k = v ∧ c2 = c ∧ j = idx) := by
  unfold addNext at h
  cases hv : states[v]? with
  | none =>
    rw [hv] at h
    exact Or.inl h
  | some sv =>
    rw [hv] at h
    rw [List.getD_eq_getElem?_getD, List.getElem?_set] at h
    by_cases hkv : v = k
    · subst hkv
      rw [if_pos rfl, if_pos (getElem?_lt hv)] at h
      have h2 : (c2, j) ∈ sv.next ++ [(c, idx)] := h
      rcases List.mem_append.mp h2 with h3 | h3
      · left
        rw [List.getD_eq_getElem?_getD, hv]
        exact h3
      · right
        have h4 := List.mem_singleton.mp h3
        have h5 : c2 = c := congrArg Prod.fst h4
        have h6 : j = idx := congrArg Prod.snd h4
        exact ⟨rfl, h5, h6⟩
    · rw [if_neg hkv] at h
      left
      rw [List.getD_eq_getElem?_getD]
      exact h

/-- The invariant maintained by the DFA work-list loop: every state's
position set is a non-empty subset of the tree's terminals, and every
recorded transition `(c, j)` of state `i` points within bounds at the
state holding exactly the follow-position union of state `i` on `c`. -/
def DfaInv (root : RegexNode) (states : List DfaState) : Prop :=
  (∀ s ∈ states, s.terminals ⊆ treeTerminals root ∧ s.terminals.Nonempty) ∧
  (∀ i c j, (c, j) ∈ (states.getD i default).next →
    j < states.length ∧
    (states.getD j default).terminals =
      followUnion root (states.getD i default).terminals c)

theorem followUnion_empty (root : RegexNode) (c : Char) :
    followUnion root ∅ c = ∅ := by
  unfold followUnion
  rw [Finset.filter_empty, Finset.sup_empty]
  rfl

theorem processChar_inv (root : RegexNode) (states : List DfaState) (v : Nat) (c : Char)
    (hinv : DfaInv root states) :
    DfaInv root (processChar root states v c) ∧
    states.length ≤ (processChar root states v c).length := by
  obtain ⟨hP1, hP2⟩ := hinv
  simp only [processChar]
  cases hf : states.findIdx?
      (fun st => fsetEq (followUnion root (states.getD v default).terminals c) st.terminals) with
  | some idx =>
    rcases findIdx?_spec _ states idx hf with ⟨x, hx, hpx⟩
    have hteq : (states.getD idx default).terminals =
        followUnion root (states.getD v default).terminals c := by
      rw [List.getD_eq_getElem?_getD, hx]
      exact ((fsetEq_iff _ _).mp hpx).symm
    show DfaInv root (addNext states v c idx) ∧
      states.length ≤ (addNext states v c idx).length
    refine ⟨⟨?_, ?_⟩, ?_⟩
    · intro s hs
      unfold addNext at hs
      cases hv2 : states[v]? with
      | none =>
        rw [hv2] at hs
        exact hP1 s hs
      | some sv =>
        rw [hv2] at hs
        rcases List.mem_or_eq_of_mem_set hs with hs2 | hs2
        · exact hP1 s hs2
        · rw [hs2]
          exact hP1 sv (getElem?_mem_list hv2)
    · intro i c2 j hj
      simp only [addNext_length, addNext_terminals]
      rcases addNext_next_mem states v c idx i c2 j hj with hmem | ⟨hk, hc2, hjidx⟩
      · exact hP2 i c2 j hmem
      · subst hk
        subst hc2
        subst hjidx
        exact ⟨getElem?_lt hx, hteq⟩
    · simp only [addNext_length]
      exact le_refl _
  | none =>
    show DfaInv root (if (followUnion root (states.getD v default).terminals c).card = 0
        then states
        else addNext (states ++ [(⟨followUnion root (states.getD v default).terminals c, []⟩ :
          DfaState)]) v c states.length) ∧
      states.length ≤ (if (followUnion root (states.getD v default).terminals c).card = 0
        then states
        else addNext (states ++ [(⟨followUnion root (states.getD v default).terminals c, []⟩ :
          DfaState)]) v c states.length).length
    by_cases hu : (followUnion root (states.getD v default).terminals c).card = 0
    · rw [if_pos hu]
      exact ⟨⟨hP1, hP2⟩, le_refl _⟩
    · rw [if_neg hu]
      have hvlen : v < states.length := by
        by_contra hvc
        have hdef : states.getD v default = default := by
          rw [List.getD_eq_getElem?_getD, List.getElem?_eq_none (by omega)]
          rfl
        rw [hdef] at hu
        have : followUnion root (default : DfaState).terminals c = ∅ :=
          followUnion_empty root c
        rw [this] at hu
        exact hu rfl
      have hS2_lt : ∀ k, k < states.length →
          (states ++ [(⟨followUnion root (states.getD v default).terminals c, []⟩ :
            DfaState)]).getD k default = states.getD k default := by
        intro k hk
        simp only [List.getD_eq_getElem?_getD, List.getElem?_append, hk, if_true]
      have hS2_at : (states ++ [(⟨followUnion root (states.getD v default).terminals c, []⟩ :
          DfaState)]).getD states.length default =
          ⟨followUnion root (states.getD v default).terminals c, []⟩ := by
        rw [List.getD_eq_getElem?_getD, List.getElem?_concat_length]
        rfl
      have hS2_gt : ∀ k, states.length < k →
          (states ++ [(⟨followUnion root (states.getD v default).terminals c, []⟩ :
            DfaState)]).getD k default = default := by
        intro k hk
        rw [List.getD_eq_getElem?_getD, List.getElem?_append, if_neg (by omega)]
        rw [List.getElem?_eq_none (by simp; omega)]
        rfl
      have hS2len : (states ++ [(⟨followUnion root (states.getD v default).terminals c, []⟩ :
          DfaState)]).length = states.length + 1 := by
        simp
      refine ⟨⟨?_, ?_⟩, ?_⟩
      · intro s hs
        unfold addNext at hs
        cases hv2 : (states ++ [(⟨followUnion root (states.getD v default).terminals c, []⟩ :
            DfaState)])[v]? with
        | none =>
          rw [hv2] at hs
          rcases List.mem_append.mp hs with hs2 | hs2
          · exact hP1 s hs2
          · rw [List.mem_singleton.mp hs2]
            exact ⟨followUnion_subset root _ c,
              Finset.card_pos.mp (Nat.pos_of_ne_zero hu)⟩
        | some sv =>
          rw [hv2] at hs
          rcases List.mem_or_eq_of_mem_set hs with hs2 | hs2
          · rcases List.mem_append.mp hs2 with hs3 | hs3
            · exact hP1 s hs3
            · rw [List.mem_singleton.mp hs3]
              exact ⟨followUnion_subset root _ c,
                Finset.card_pos.mp (Nat.pos_of_ne_zero hu)⟩
          · rw [hs2]
            have hsv : sv ∈ states ++ [(⟨followUnion root
                (states.getD v default).terminals c, []⟩ : DfaState)] :=
              getElem?_mem_list hv2
            rcases List.mem_append.mp hsv with hs3 | hs3
            · exact hP1 sv hs3
            · rw [List.mem_singleton.mp hs3]
              exact ⟨followUnion_subset root _ c,
                Finset.card_pos.mp (Nat.pos_of_ne_zero hu)⟩
      · intro i c2 j hj
        simp only [addNext_length, addNext_terminals, hS2len]
        rcases addNext_next_mem _ v c states.length i c2 j hj with hmem | ⟨hk, hc2, hjidx⟩
        · by_cases hi : i < states.length
          · rw [hS2_lt i hi] at hmem
            rcases hP2 i c2 j hmem with ⟨hjlen, hjeq⟩
            rw [hS2_lt i hi, hS2_lt j hjlen]
            exact ⟨by omega, hjeq⟩
          · exfalso
            by_cases hieq : i = states.length
            · subst hieq
              rw [hS2_at] at hmem
              exact absurd hmem (List.not_mem_nil _)
            · rw [hS2_gt i (by omega)] at hmem
              exact absurd hmem (List.not_mem_nil _)
        · rw [hk, hc2, hjidx, hS2_at, hS2_lt v hvlen]
          exact ⟨by omega, rfl⟩
      · simp only [addNext_length, hS2len]
        omega

theorem foldl_processChar_inv (root : RegexNode) (order : List Char) :
    ∀ (states : List DfaState) (v : Nat), DfaInv root states →
    DfaInv root (order.foldl (fun sts c2 => processChar root sts v c2) states) := by
  induction order with
  | nil =>
    intro states v h
    exact h
  | cons c cs ih =>
    intro states v h
    simp only [List.foldl_cons]
    exact ih (processChar root states v c) v (processChar_inv root states v c h).1

theorem dfaLoop_inv (root : RegexNode) (order : List Char) :
    ∀ (fuel : Nat) (states : List DfaState) (visited : Nat), DfaInv root states →
    DfaInv root (dfaLoop root order fuel states visited) := by
  intro fuel
  induction fuel with
  | zero =>
    intro states visited h
    exact h
  | succ fuel ih =>
    intro states visited h
    simp only [dfaLoop]
    split
    · exact ih _ _ (foldl_processChar_inv root order states visited h)
    · exact h

theorem createDfa_inv (fuel : Nat) (root : RegexNode) (order : List Char) :
    DfaInv root (createDfa fuel root order) := by
  unfold createDfa
  apply dfaLoop_inv
  constructor
  · intro s hs
    rw [List.mem_singleton.mp hs]
    exact ⟨firstpos_subset root, firstpos_nonempty root⟩
  · intro i c j hj
    exfalso
    have h0 : (([(⟨firstpos root, []⟩ : DfaState)] : List DfaState).getD i default).next = [] := by
      cases i with
      | zero => rfl
      | succ m => rfl
    rw [h0] at hj
    exact absurd hj (List.not_mem_nil _)

theorem parse_shape (fuel : Nat) (toks : List Token) (tree : RegexNode) (alpha : Finset Char)
    (hp : parseTokens fuel toks = .ok (tree, alpha)) :
    ∃ t0 n, tree = .Cat t0 (.Terminal ⟨n, '\x00'⟩) ∧ alpha = treeChars t0 := by
  unfold parseTokens at hp
  cases h1 : p1 fuel toks 0 ∅ with
  | error e => rw [h1] at hp; exact Except.noConfusion hp
  | ok o =>
    rw [h1] at hp
    have h' : (if peekTok o.toks = Token.End then
        Except.ok ((.Cat o.node (.Terminal ⟨o.pos, '\x00'⟩) : RegexNode), o.alpha)
      else Except.error "Expected EOF") = Except.ok (tree, alpha) := hp
    by_cases hend : peekTok o.toks = Token.End
    · rw [if_pos hend] at h'
      have hpair := (Except.ok.injEq _ _).mp h'
      have htree : tree = .Cat o.node (.Terminal ⟨o.pos, '\x00'⟩) :=
        ((Prod.mk.injEq _ _ _ _).mp hpair).1.symm
      have halpha : alpha = o.alpha := ((Prod.mk.injEq _ _ _ _).mp hpair).2.symm
      refine ⟨o.node, o.pos, htree, ?_⟩
      rcases (parser_alpha fuel).1 toks 0 ∅ o h1 with ⟨ha, _⟩
      rw [halpha, ha]
      ext x
      simp only [Finset.mem_union, Finset.not_mem_empty]
      tauto
    · rw [if_neg hend] at h'
      exact Except.noConfusion h'

/-- Claim C5, amended: for every accepted pattern that does not contain a
literal NUL character, and every iteration order of the alphabet, every
state the builder produces is accepting iff the sentinel terminal is a
member of its position set; and every transition present targets an
in-bounds state whose position set equals the (non-empty) union of
`followpos` over the source state's positions carrying that character —
with no transition recorded when that union is empty.  (For patterns
containing a literal NUL the accepting flag can be true without the
sentinel position, see the counterexample.) -/
theorem c5_state_invariants (fuel fuel2 : Nat) (pat : String) (tree : RegexNode)
    (alpha : Finset Char) (order : List Char)
    (hp : parseRegexF fuel pat = .ok (tree, alpha))
    (hz : '\x00' ∉ alpha) :
    (∀ s ∈ createDfa fuel2 tree order,
       (s.accepting = true ↔ sentinel tree ∈ s.terminals)) ∧
    (∀ i c j, (c, j) ∈ ((createDfa fuel2 tree order).getD i default).next →
       j < (createDfa fuel2 tree order).length ∧
       ((createDfa fuel2 tree order).getD j default).terminals =
         followUnion tree ((createDfa fuel2 tree order).getD i default).terminals c ∧
       (followUnion tree ((createDfa fuel2 tree order).getD i default).terminals c).Nonempty) := by
  unfold parseRegexF at hp
  cases htok : tokenize pat.toList with
  | error e => rw [htok] at hp; exact Except.noConfusion hp
  | ok toks =>
    rw [htok] at hp
    rcases parse_shape fuel toks tree alpha hp with ⟨t0, n, htree, halpha⟩
    obtain ⟨hI1, hI2⟩ := createDfa_inv fuel2 tree order
    have hterm : treeTerminals tree = treeTerminals t0 ∪ {(⟨n, '\x00'⟩ : RegexTerminal)} := by
      rw [htree]
      rfl
    have hsent : sentinel tree = ⟨n, '\x00'⟩ := by
      rw [htree]
      rfl
    constructor
    · intro s hs
      rcases hI1 s hs with ⟨hsub, _⟩
      constructor
      · intro hacc
        rcases (accepting_iff s).mp hacc with ⟨t, htmem, htch⟩
        have htT : t ∈ treeTerminals tree := hsub htmem
        rw [hterm] at htT
        rcases Finset.mem_union.mp htT with h0 | h0
        · exfalso
          apply hz
          rw [halpha]
          have : t.ch ∈ treeChars t0 := Finset.mem_image_of_mem RegexTerminal.ch h0
          rw [htch] at this
          exact this
        · rw [hsent]
          rw [Finset.mem_singleton.mp h0] at htmem
          exact htmem
      · intro hmem
        apply (accepting_iff s).mpr
        refine ⟨sentinel tree, hmem, ?_⟩
        rw [hsent]
    · intro i c j hj
      rcases hI2 i c j hj with ⟨hjlen, hjeq⟩
      refine ⟨hjlen, hjeq, ?_⟩
      rw [← hjeq]
      have hjmem : (createDfa fuel2 tree order).getD j default ∈ createDfa fuel2 tree order := by
        rw [List.getD_eq_getElem?_getD]
        cases hje : (createDfa fuel2 tree order)[j]? with
        | none =>
          exfalso
          have := List.getElem?_eq_none_iff.mp hje
          omega
        | some x => exact getElem?_mem_list hje
      exact (hI1 _ hjmem).2

theorem c5_state_invariants_witness :
    1 < (createDfa 100 (.Cat (.Terminal ⟨0, 'a'⟩) (.Terminal ⟨1, '\x00'⟩)) ['a']).length :=
  ((c5_state_invariants 100 100 "a" (.Cat (.Terminal ⟨0, 'a'⟩) (.Terminal ⟨1, '\x00'⟩))
    {'a'} ['a'] (by rfl) (by decide)).2 0 'a' 1 (by decide)).1

/-- Claim C6, amended: DFA construction is deterministic as a function of
the pattern and the alphabet iteration order — building twice from equal
token-specification lists yields identical flat state arrays, and running
the builder twice on the same tree with the same iteration order yields
identical DFA state arrays; but two different iteration orders of the same
alphabet set (as a Rust `HashSet` exhibits across instances) may yield
observably different arrays (see the counterexample). -/
theorem c6_deterministic_given_order (fuel : Nat)
    (specs1 specs2 : List (String × String)) (h : specs1 = specs2)
    (tree : RegexNode) (order1 order2 : List Char) (horder : order1 = order2) :
    fillStates fuel specs1 = fillStates fuel specs2 ∧
    createDfa fuel tree order1 = createDfa fuel tree order2 := by
  rw [h, horder]
  exact ⟨rfl, rfl⟩

theorem c6_deterministic_given_order_witness :
    fillStates 100 [("A", "a")] = fillStates 100 [("A", "a")] ∧
    createDfa 100 (.Cat (.Terminal ⟨0, 'a'⟩) (.Terminal ⟨1, '\x00'⟩)) ['a'] =
      createDfa 100 (.Cat (.Terminal ⟨0, 'a'⟩) (.Terminal ⟨1, '\x00'⟩)) ['a'] :=
  c6_deterministic_given_order 100 [("A", "a")] [("A", "a")] rfl
    (.Cat (.Terminal ⟨0, 'a'⟩) (.Terminal ⟨1, '\x00'⟩)) ['a'] ['a'] rfl
